import Mathlib

/-!
Verification of the tool-orchestration layer of the `local-code` repository.

The development shallowly embeds, in order:
* `src/src/utils/extract.ts` — `extractToolCalls` with its two regex passes
  (`/tools\/call\s+(\w+)\s+(\w+)\s+({.*?})/g` and
  `/tools\/call\s+(\w+)\s+({.*?})/g`), including the stateful
  `regex1.test(fullMatch)` de-duplication guard (a JS global regex keeps its
  `lastIndex` across `test` calls);
* a model of `JSON.parse` / `JSON.stringify` restricted to the JSON value
  grammar this code exchanges (integer numerals only; fractional and
  exponent numerals and `\uXXXX` escapes are rejected by the model parser);
* `src/src/mcp/ollama-bridge.ts` — `MCPServerManager.startServer`'s tracked
  server map and its startup-acknowledgement promise;
* `src/src/mcp/client.ts` — `MCPClient.listTools` / `MCPClient.callTool`;
* `src/unnamed/part_001` — `findServerForTool`;
* `src/src/mcp/github.ts` — `ServerConfigManager.load`.
-/

namespace LocalCode

/-! ## Character classes of the JS regexes in `extract.ts` -/

/-- JS `\w` (ASCII word characters `[A-Za-z0-9_]`). -/
def isWordChar (c : Char) : Bool :=
  c.isAlpha || c.isDigit || c == '_'

/-- JS `\s`, restricted to its ASCII members (the exotic Unicode space code
points recognized by JS are omitted; no input of this code base contains
them). -/
def isJsSpace (c : Char) : Bool :=
  (c == ' ') || (c == '\t') || (c == '\n') || (c == '\r') ||
    (c == '\x0b') || (c == '\x0c')

/-- JS `.` (any character except the four line terminators). -/
def isJsDot (c : Char) : Bool :=
  !(c == '\n' || c == '\r' || c == Char.ofNat 0x2028 || c == Char.ofNat 0x2029)

/-- The literal keyword of both regexes. -/
def kwChars : List Char := ['t', 'o', 'o', 'l', 's', '/', 'c', 'a', 'l', 'l']

/-! ## Elementary matchers

Both regexes are backtracking-free: every pair of adjacent subpatterns
(`tools\/call`, `\s+`, `\w+`, `{`) draws from pairwise disjoint character
classes, so greedy maximal munch is the unique parse, and the lazy group
`{.*?}` stops at the first `}`. The matchers below realize exactly that. -/

/-- Consume the literal `lit` from the front of `l`. -/
def dropLit : List Char → List Char → Option (List Char)
  | [], rest => some rest
  | _ :: _, [] => none
  | p :: ps, c :: cs => if c == p then dropLit ps cs else none

/-- Greedy `X+` for the class `p`: at least one character, maximal munch.
Returns the matched run and the remainder. -/
def takeWhile1 (p : Char → Bool) : List Char → Option (List Char × List Char)
  | [] => none
  | c :: cs =>
    if p c then some (c :: cs.takeWhile p, cs.dropWhile p)
    else none

/-- The lazy group `.*?` followed by `}`: the shortest run of `.`-matchable
characters up to the first `}`. Fails at a line terminator or at the end of
input. Returns the run (without the `}`) and the remainder after the `}`. -/
def lazyBody : List Char → Option (List Char × List Char)
  | [] => none
  | c :: cs =>
    if c == '}' then some ([], cs)
    else if isJsDot c then (lazyBody cs).map (fun br => (c :: br.1, br.2))
    else none

/-- Captures of one match of regex 1 (`tools\/call\s+(\w+)\s+(\w+)\s+({.*?})`).
`args` is the third capture including its braces; `len` is the length of the
whole match. -/
structure QualCap where
  server : List Char
  tool : List Char
  args : List Char
  len : Nat
deriving DecidableEq, Repr

/-- Captures of one match of regex 2 (`tools\/call\s+(\w+)\s+({.*?})`). -/
structure UnqualCap where
  tool : List Char
  args : List Char
  len : Nat
deriving DecidableEq, Repr

/-- Consume the literal `{` opening the lazy group. -/
def expectBrace : List Char → Option (List Char)
  | c :: r => if c = '{' then some r else none
  | [] => none

/-- Match regex 1 anchored at the front of `l`. -/
def matchQualAt (l : List Char) : Option QualCap :=
  (dropLit kwChars l).bind fun r0 =>
  (takeWhile1 isJsSpace r0).bind fun p1 =>
  (takeWhile1 isWordChar p1.2).bind fun p2 =>
  (takeWhile1 isJsSpace p2.2).bind fun p3 =>
  (takeWhile1 isWordChar p3.2).bind fun p4 =>
  (takeWhile1 isJsSpace p4.2).bind fun p5 =>
  (expectBrace p5.2).bind fun r6 =>
  (lazyBody r6).map fun p6 =>
    { server := p2.1, tool := p4.1, args := '{' :: (p6.1 ++ ['}']),
      len := kwChars.length + p1.1.length + p2.1.length + p3.1.length +
             p4.1.length + p5.1.length + (p6.1.length + 2) }

/-- Match regex 2 anchored at the front of `l`. -/
def matchUnqualAt (l : List Char) : Option UnqualCap :=
  (dropLit kwChars l).bind fun r0 =>
  (takeWhile1 isJsSpace r0).bind fun p1 =>
  (takeWhile1 isWordChar p1.2).bind fun p2 =>
  (takeWhile1 isJsSpace p2.2).bind fun p3 =>
  (expectBrace p3.2).bind fun r4 =>
  (lazyBody r4).map fun p4 =>
    { tool := p2.1, args := '{' :: (p4.1 ++ ['}']),
      len := kwChars.length + p1.1.length + p2.1.length + p3.1.length +
             (p4.1.length + 2) }

/-! ## JSON values

Model of the JSON data exchanged through `JSON.parse` / `JSON.stringify`.
JS numbers are IEEE doubles; this model keeps integer numerals only (the
parser below rejects fractional and exponent numerals instead of reading a
float — no claim of this development depends on non-integer numerals).
Objects are modelled as association lists in insertion order. -/

inductive Json where
  | null
  | bool (b : Bool)
  | num (n : Int)
  | str (s : String)
  | arr (items : List Json)
  | obj (fields : List (String × Json))

/-! ## A model of `JSON.parse`

Recursive-descent parser over a character list, with explicit fuel (the
syntax nesting consumes at most two fuel units per input character, see
`jsonParse`). Deliberate restrictions of the model, each marked where it
happens: integer numerals only, no `\uXXXX` escapes. -/

/-- JSON insignificant whitespace. -/
def isJsonWs (c : Char) : Bool :=
  (c == ' ') || ((c == '\t') || ((c == '\n') || (c == '\r')))

/-- Skip insignificant whitespace. -/
def skipWs (l : List Char) : List Char :=
  l.dropWhile isJsonWs

/-- Parse the body of a JSON string after the opening quote, up to and
including the closing quote. `\uXXXX` escapes are not modelled (the parser
fails on them; no claim exercises them). -/
def parseStrBody : Nat → List Char → Option (List Char × List Char)
  | 0, _ => none
  | _, [] => none
  | fuel + 1, c :: cs =>
    if c == '"' then some ([], cs)
    else if c == '\\' then
      match cs with
      | [] => none
      | e :: cs2 =>
        let esc : Option Char :=
          if e == '"' then some '"'
          else if e == '\\' then some '\\'
          else if e == '/' then some '/'
          else if e == 'n' then some '\n'
          else if e == 't' then some '\t'
          else if e == 'r' then some '\r'
          else if e == 'b' then some '\x08'
          else if e == 'f' then some '\x0c'
          else none
        match esc with
        | none => none
        | some d => (parseStrBody fuel cs2).map (fun p => (d :: p.1, p.2))
    else if c.toNat < 0x20 then none
    else (parseStrBody fuel cs).map (fun p => (c :: p.1, p.2))

/-- Accumulate a run of decimal digits (value and remainder). -/
def readDigits : Nat → List Char → Nat × List Char
  | acc, [] => (acc, [])
  | acc, c :: cs =>
    if c.isDigit then readDigits (acc * 10 + (c.toNat - 48)) cs
    else (acc, c :: cs)

/-- Parse an unsigned integer numeral. Fails when a fraction or exponent
follows (model restriction: no float numerals). -/
def parseNumNat (l : List Char) : Option (Nat × List Char) :=
  match l with
  | [] => none
  | c :: _ =>
    if c.isDigit then
      let p := readDigits 0 l
      match p.2 with
      | [] => some (p.1, [])
      | d :: _ =>
        if d == '.' || d == 'e' || d == 'E' then none else some (p.1, p.2)
    else none

/-- Parse a JSON integer numeral with optional sign. -/
def parseNum (l : List Char) : Option (Int × List Char) :=
  match l with
  | [] => none
  | c :: rest =>
    if c = '-' then (parseNumNat rest).map (fun p => (-(p.1 : Int), p.2))
    else (parseNumNat (c :: rest)).map (fun p => ((p.1 : Int), p.2))

mutual

/-- Parse one JSON value: skip whitespace, then branch on the first
character. The JS parser's control flow is split into one fueled helper per
decision point so every step is a plain structural equation. -/
def parseValue : Nat → List Char → Option (Json × List Char)
  | 0, _ => none
  | fuel + 1, l => parseValueHead fuel (skipWs l)

/-- Branch on the first significant character of a value. -/
def parseValueHead : Nat → List Char → Option (Json × List Char)
  | 0, _ => none
  | _ + 1, [] => none
  | fuel + 1, c :: r =>
    if c = '{' then parseValueObjHead fuel r (skipWs r)
    else if c = '[' then parseValueArrHead fuel r (skipWs r)
    else if c = '"' then
      (parseStrBody (r.length + 1) r).map
        (fun p => (Json.str (String.mk p.1), p.2))
    else if c = 't' then
      (dropLit ['r', 'u', 'e'] r).map (fun rest => (Json.bool true, rest))
    else if c = 'f' then
      (dropLit ['a', 'l', 's', 'e'] r).map (fun rest => (Json.bool false, rest))
    else if c = 'n' then
      (dropLit ['u', 'l', 'l'] r).map (fun rest => (Json.null, rest))
    else (parseNum (c :: r)).map (fun p => (Json.num p.1, p.2))

/-- After `{`: an immediate `}` is the empty object, anything else is a
member list. The last argument is `skipWs` of the object body `r`. -/
def parseValueObjHead : Nat → List Char → List Char → Option (Json × List Char)
  | 0, _, _ => none
  | fuel + 1, r, [] => (parseObjMembers fuel r).map (fun p => (Json.obj p.1, p.2))
  | fuel + 1, r, c2 :: r2 =>
    if c2 = '}' then some (Json.obj [], r2)
    else (parseObjMembers fuel r).map (fun p => (Json.obj p.1, p.2))

/-- After `[`: an immediate `]` is the empty array. -/
def parseValueArrHead : Nat → List Char → List Char → Option (Json × List Char)
  | 0, _, _ => none
  | fuel + 1, r, [] => (parseArrElems fuel r).map (fun p => (Json.arr p.1, p.2))
  | fuel + 1, r, c2 :: r2 =>
    if c2 = ']' then some (Json.arr [], r2)
    else (parseArrElems fuel r).map (fun p => (Json.arr p.1, p.2))

/-- Parse a nonempty comma-separated list of array elements plus the
closing `]`. -/
def parseArrElems : Nat → List Char → Option (List Json × List Char)
  | 0, _ => none
  | fuel + 1, l =>
    (parseValue fuel l).bind fun v => parseArrSep fuel v.1 (skipWs v.2)

/-- After one array element: `,` continues, `]` closes. -/
def parseArrSep : Nat → Json → List Char → Option (List Json × List Char)
  | 0, _, _ => none
  | _ + 1, _, [] => none
  | fuel + 1, v, c :: r2 =>
    if c = ',' then (parseArrElems fuel r2).map (fun q => (v :: q.1, q.2))
    else if c = ']' then some ([v], r2)
    else none

/-- Parse a nonempty comma-separated list of object members plus the
closing `}`. -/
def parseObjMembers : Nat → List Char → Option (List (String × Json) × List Char)
  | 0, _ => none
  | fuel + 1, l => parseMembersHead fuel (skipWs l)

/-- A member starts with a quoted key. -/
def parseMembersHead : Nat → List Char → Option (List (String × Json) × List Char)
  | 0, _ => none
  | _ + 1, [] => none
  | fuel + 1, c :: r =>
    if c = '"' then
      (parseStrBody (r.length + 1) r).bind fun k =>
        parseMemberColon fuel k.1 (skipWs k.2)
    else none

/-- After the key: expect `:` and the value. -/
def parseMemberColon : Nat → List Char → List Char → Option (List (String × Json) × List Char)
  | 0, _, _ => none
  | _ + 1, _, [] => none
  | fuel + 1, key, c :: r3 =>
    if c = ':' then
      (parseValue fuel r3).bind fun v =>
        parseMemberSep fuel key v.1 (skipWs v.2)
    else none

/-- After one member: `,` continues, `}` closes. -/
def parseMemberSep : Nat → List Char → Json → List Char →
    Option (List (String × Json) × List Char)
  | 0, _, _, _ => none
  | _ + 1, _, _, [] => none
  | fuel + 1, key, v, c :: r5 =>
    if c = ',' then
      (parseObjMembers fuel r5).map (fun p => ((String.mk key, v) :: p.1, p.2))
    else if c = '}' then some ([(String.mk key, v)], r5)
    else none

end

/-- Model of `JSON.parse`: parse one value and require only whitespace to
remain. The fuel `8 * length + 8` dominates the recursion depth (the parser
helpers hand fuel down one unit per decision point and consume at least one
character every few points). -/
def jsonParse (l : List Char) : Option Json :=
  match parseValue (8 * l.length + 8) l with
  | none => none
  | some (v, r) => if skipWs r = [] then some v else none

/-! ## A model of `JSON.stringify` -/

/-- A hexadecimal digit (lower case), as emitted by `JSON.stringify` in
`\u00XX` escapes of control characters. -/
def hexDigitChar (n : Nat) : Char :=
  match n with
  | 0 => '0' | 1 => '1' | 2 => '2' | 3 => '3' | 4 => '4'
  | 5 => '5' | 6 => '6' | 7 => '7' | 8 => '8' | 9 => '9'
  | 10 => 'a' | 11 => 'b' | 12 => 'c' | 13 => 'd' | 14 => 'e' | _ => 'f'

/-- String-escaping of one character, as `JSON.stringify` performs it. -/
def escChar (c : Char) : List Char :=
  if c == '"' then ['\\', '"']
  else if c == '\\' then ['\\', '\\']
  else if c == '\n' then ['\\', 'n']
  else if c == '\r' then ['\\', 'r']
  else if c == '\t' then ['\\', 't']
  else if c == '\x08' then ['\\', 'b']
  else if c == '\x0c' then ['\\', 'f']
  else if c.toNat < 0x20 then
    '\\' :: 'u' :: '0' :: '0' ::
      [hexDigitChar (c.toNat / 16), hexDigitChar (c.toNat % 16)]
  else [c]

/-- Escape a whole string body. -/
def escapeStr (s : List Char) : List Char :=
  s.flatMap escChar

/-- Decimal digits of a natural number, most significant first. -/
def natDigits (n : Nat) : List Char :=
  if _h : n < 10 then [hexDigitChar n]
  else natDigits (n / 10) ++ [hexDigitChar (n % 10)]
termination_by n
decreasing_by exact Nat.div_lt_self (by omega) (by norm_num)

/-- Decimal numeral of an integer, as JS prints integral numbers. -/
def intChars (n : Int) : List Char :=
  if n < 0 then '-' :: natDigits (-n).toNat else natDigits n.toNat

mutual

/-- Characters of `JSON.stringify` of one value. -/
def stringifyVal : Json → List Char
  | .null => 'n' :: ['u', 'l', 'l']
  | .bool true => 't' :: ['r', 'u', 'e']
  | .bool false => 'f' :: ['a', 'l', 's', 'e']
  | .num n => intChars n
  | .str s => '"' :: (escapeStr s.data ++ ['"'])
  | .arr es => '[' :: (stringifyElems es ++ [']'])
  | .obj ms => '{' :: (stringifyMembers ms ++ ['}'])

/-- Comma-separated serialization of array elements. -/
def stringifyElems : List Json → List Char
  | [] => []
  | [v] => stringifyVal v
  | v :: rest => stringifyVal v ++ ',' :: stringifyElems rest

/-- Comma-separated serialization of object members. -/
def stringifyMembers : List (String × Json) → List Char
  | [] => []
  | [(k, v)] => '"' :: (escapeStr k.data ++ '"' :: ':' :: stringifyVal v)
  | (k, v) :: rest =>
    ('"' :: (escapeStr k.data ++ '"' :: ':' :: stringifyVal v)) ++
      ',' :: stringifyMembers rest

end

/-! ## `extractToolCalls` (src/src/utils/extract.ts)

The JS function runs regex 1 over the whole text pushing one call per match
(a `JSON.parse` failure skips just that match), then runs regex 2 over the
whole text; each regex-2 match is first tested against regex 1
(`if (regex1.test(fullMatch)) continue;`). `regex1` carries the `g` flag, so
this `test` is stateful: it searches from `regex1.lastIndex`, sets
`lastIndex` to the match end on success and resets it to `0` on failure (the
regex-1 `exec` loop before finished with a failure, so the first `test`
starts at `0`). -/

/-- One extracted tool-call request (`{ tool: string; args: any }`). -/
structure ToolCall where
  tool : String
  args : Json

/-- Request built from a regex-1 match: qualified name `server.tool`, parsed
arguments; `none` when `JSON.parse` throws on the captured object literal. -/
def mkQualCall (m : QualCap) : Option ToolCall :=
  (jsonParse m.args).map
    (fun j => { tool := String.mk m.server ++ "." ++ String.mk m.tool, args := j })

/-- Request built from a regex-2 match. -/
def mkUnqualCall (m : UnqualCap) : Option ToolCall :=
  (jsonParse m.args).map (fun j => { tool := String.mk m.tool, args := j })

/-- One `regex1.exec`-style search step: find the first regex-1 match in `l`
(whose absolute start offset is ≥ the base offset `pos`) and return the
absolute offset of its end. -/
def scanQualHit : Nat → List Char → Nat → Option Nat
  | 0, _, _ => none
  | fuel + 1, l, pos =>
    match matchQualAt l with
    | some m => some (pos + m.len)
    | none =>
      match l with
      | [] => none
      | _ :: tl => scanQualHit fuel tl (pos + 1)

/-- JS `regex1.test(s)` with the `g` flag: search from `lastIdx`; on success
return `true` and the new `lastIndex` (match end), on failure return `false`
and `lastIndex = 0`. -/
def jsTestQual (s : List Char) (lastIdx : Nat) : Bool × Nat :=
  match scanQualHit (s.length + 1) (s.drop lastIdx) lastIdx with
  | some e => (true, e)
  | none => (false, 0)

/-- The regex-1 `while (match = regex1.exec(content))` loop, pushing one call
per match with parseable arguments. -/
def qualLoop : Nat → List Char → List ToolCall → List ToolCall
  | 0, _, calls => calls
  | fuel + 1, l, calls =>
    match matchQualAt l with
    | some m =>
      let calls2 :=
        match mkQualCall m with
        | some call => calls ++ [call]
        | none => calls
      qualLoop fuel (l.drop m.len) calls2
    | none =>
      match l with
      | [] => calls
      | _ :: tl => qualLoop fuel tl calls

/-- The regex-2 loop with the stateful regex-1 guard (`tIdx` is
`regex1.lastIndex`). -/
def unqualLoop : Nat → List Char → Nat → List ToolCall → List ToolCall
  | 0, _, _, calls => calls
  | fuel + 1, l, tIdx, calls =>
    match matchUnqualAt l with
    | some m =>
      let t := jsTestQual (l.take m.len) tIdx
      let calls2 :=
        if t.1 then calls
        else
          match mkUnqualCall m with
          | some call => calls ++ [call]
          | none => calls
      unqualLoop fuel (l.drop m.len) t.2 calls2
    | none =>
      match l with
      | [] => calls
      | _ :: tl => unqualLoop fuel tl tIdx calls

/-- `extractToolCalls` of src/src/utils/extract.ts. -/
def extractToolCalls (content : String) : List ToolCall :=
  unqualLoop (content.data.length + 1) content.data 0
    (qualLoop (content.data.length + 1) content.data [])

/-! Instrumented match scans: the same traversals, returning the raw regex
matches with their start offsets instead of pushing parsed calls. The
lemmas relate `extractToolCalls` to these scans. -/

/-- All regex-1 matches with start offsets. -/
def scanQual : Nat → List Char → Nat → List (Nat × QualCap)
  | 0, _, _ => []
  | fuel + 1, l, pos =>
    match matchQualAt l with
    | some m => (pos, m) :: scanQual fuel (l.drop m.len) (pos + m.len)
    | none =>
      match l with
      | [] => []
      | _ :: tl => scanQual fuel tl (pos + 1)

/-- All regex-2 matches surviving the stateful regex-1 guard, with start
offsets. -/
def scanUnqual : Nat → List Char → Nat → Nat → List (Nat × UnqualCap)
  | 0, _, _, _ => []
  | fuel + 1, l, pos, tIdx =>
    match matchUnqualAt l with
    | some m =>
      let t := jsTestQual (l.take m.len) tIdx
      if t.1 then scanUnqual fuel (l.drop m.len) (pos + m.len) t.2
      else (pos, m) :: scanUnqual fuel (l.drop m.len) (pos + m.len) t.2
    | none =>
      match l with
      | [] => []
      | _ :: tl => scanUnqual fuel tl (pos + 1) tIdx

/-- The qualified matches of a text, with offsets. -/
def qualMatches (content : String) : List (Nat × QualCap) :=
  scanQual (content.data.length + 1) content.data 0

/-- The guard-surviving unqualified matches of a text, with offsets. -/
def unqualMatches (content : String) : List (Nat × UnqualCap) :=
  scanUnqual (content.data.length + 1) content.data 0 0

/-! ## Formatting a request into the textual syntaxes

Modelled from the spec: the repository itself contains no formatter for
`ToolCallRequest`s; §8's round-trip property speaks of "formatting a known
ToolCallRequest into either supported syntax", i.e. producing the directive
`tools/call <server> <tool> <json-object>` (qualified) or
`tools/call <tool> <json-object>` (unqualified) with the argument mapping
serialized as a JSON object literal. -/

/-- Modelled from the spec: format a request in the qualified directive
syntax, the argument mapping serialized by `JSON.stringify`. -/
def formatQual (server tool : String) (args : List (String × Json)) : String :=
  String.mk (kwChars ++ ' ' :: server.data ++ ' ' :: tool.data ++
    ' ' :: stringifyVal (Json.obj args))

/-- Modelled from the spec: format a request in the unqualified directive
syntax. -/
def formatUnqual (tool : String) (args : List (String × Json)) : String :=
  String.mk (kwChars ++ ' ' :: tool.data ++ ' ' :: stringifyVal (Json.obj args))

/-! ## `MCPServerManager` (src/src/mcp/ollama-bridge.ts)

`startServer` returns immediately when `this.servers` already has the id,
throws when `config.command` is falsy, and otherwise spawns a child process
and records it with `this.servers.set(config.id, childProcess)`. The
tracked-map transition is modelled here; the startup-acknowledgement promise
is modelled separately below. -/

/-- The fields of `ServerConfig` that `startServer` consults. -/
structure ServerConfig where
  id : String
  command : String
  args : List String

/-- JS `Map.has`. -/
def mapHas (m : List (String × Nat)) (k : String) : Bool :=
  m.any (fun kv => kv.1 == k)

/-- JS `Map.set` (replace in place, else append in insertion order). -/
def mapSet (m : List (String × Nat)) (k : String) (v : Nat) : List (String × Nat) :=
  if mapHas m k then m.map (fun kv => if kv.1 == k then (k, v) else kv)
  else m ++ [(k, v)]

/-- The manager's `servers: Map<string, ChildProcess>`; child processes are
identified by an abstract handle (`Nat`). -/
structure ManagerState where
  servers : List (String × Nat)

/-- How one `startServer` call went. -/
inductive StartOutcome where
  | alreadyRunning
  | noCommand
  | spawned
deriving DecidableEq, Repr

/-- The synchronous tracked-map transition of `startServer` — `child` is the
handle the spawn would produce. `alreadyRunning` is the early `return`,
`noCommand` the thrown error for a falsy `config.command`. -/
def startServer (st : ManagerState) (cfg : ServerConfig) (child : Nat) :
    ManagerState × StartOutcome :=
  if mapHas st.servers cfg.id then (st, .alreadyRunning)
  else if cfg.command = "" then (st, .noCommand)
  else ({ servers := mapSet st.servers cfg.id child }, .spawned)

/-- `stopServer` kills the child; the `close` handler then deletes the map
entry. -/
def stopServer (st : ManagerState) (serverId : String) : ManagerState :=
  { servers := st.servers.filter (fun kv => !(kv.1 == serverId)) }

/-! ## The startup acknowledgement of `startServer`

The awaited promise resolves on the first `stdout` `data` event, rejects on
an `error` event, rejects on a `close` event with `code !== 0`, does nothing
on a `close` event with code `0`, and resolves when the 5-second timeout
fires with the promise still pending. A promise settles once: the first
settling event wins. -/

/-- Events the acknowledgement promise listens to, in the order they occur
before the 5-second timeout would fire. `procClose none` is a close with a
`null` exit code (process killed by a signal). -/
inductive StartEvent where
  | firstOutput
  | procError
  | procClose (code : Option Int)
deriving DecidableEq, Repr

/-- Result of the acknowledgement. -/
inductive AckResult where
  | resolved
  | rejected
deriving DecidableEq, Repr

/-- How one event settles the pending promise, if at all: `close` with exit
code `0` leaves it pending (`if (code !== 0) ... reject`). -/
def settleOne : StartEvent → Option AckResult
  | .firstOutput => some .resolved
  | .procError => some .rejected
  | .procClose code => if code = some 0 then none else some .rejected

/-- Outcome of the acknowledgement given the events that occur before the
timeout: the first settling event wins, and the timeout resolves a promise
still pending. -/
def acknowledge (events : List StartEvent) : AckResult :=
  (events.findSome? settleOne).getD .resolved

/-! ## `MCPClient` (src/src/mcp/client.ts)

`listTools` and `callTool` are modelled as pure transitions over the
`toolCache` state, parameterized by the outcome of each JSON-RPC request the
method may issue. A `fail` outcome covers everything the surrounding `try`
catches: a transport failure, a non-ok HTTP status, or a `response.json()`
parse failure. -/

/-- A tool descriptor (`MCPTool`); the schema is kept as a JSON value. -/
structure MCPTool where
  name : String
  description : String
  parameters : Json

/-- The `result` payload of a `tools/list` response: the `tools` field may be
absent (`!result.tools`). -/
structure ToolsListResult where
  tools : Option (List MCPTool)

/-- Outcome of the `tools/list` JSON-RPC round trip. `reply none` is a
response whose `result` field is absent or falsy. -/
inductive ListReply where
  | fail
  | reply (result : Option ToolsListResult)

/-- A typed content item of a tool result. -/
structure ContentItem where
  type : String
  text : Option String
  resourceUri : Option String

/-- `MCPToolResult`. -/
structure MCPToolResult where
  content : List ContentItem
  isError : Bool

/-- A JSON-RPC error object (`data` omitted; no claim consults it). -/
structure RpcError where
  code : Int
  message : String

/-- Outcome of the `tools/call` JSON-RPC round trip. -/
inductive CallReply where
  | fail (message : String)
  | reply (result : Option MCPToolResult) (error : Option RpcError)

/-- Result of a `listTools` call: the returned list, the new cache, and
whether a `tools/list` request was issued. -/
structure ListToolsRun where
  returned : List MCPTool
  cache : Option (List MCPTool)
  requested : Bool

/-- `MCPClient.listTools`: serve from the cache when allowed, otherwise
issue the request; any caught failure and any reply without a usable
`result.tools` yield `[]` and leave the cache untouched. -/
def listTools (useCache : Bool) (cache : Option (List MCPTool)) (net : ListReply) :
    ListToolsRun :=
  match cache, useCache with
  | some cached, true => { returned := cached, cache := some cached, requested := false }
  | _, _ =>
    match net with
    | .fail => { returned := [], cache := cache, requested := true }
    | .reply none => { returned := [], cache := cache, requested := true }
    | .reply (some r) =>
      match r.tools with
      | none => { returned := [], cache := cache, requested := true }
      | some ts => { returned := ts, cache := some ts, requested := true }

/-- The error payload `callTool` builds in its catch block and for a
server-reported error: `ツール呼び出しエラー: <message>`. -/
def failurePayload (message : String) : MCPToolResult :=
  { content := [{ type := "text",
                  text := some ("ツール呼び出しエラー: " ++ message),
                  resourceUri := none }],
    isError := true }

/-- The message of the error thrown for an unsupported tool. -/
def unsupportedMessage (toolName : String) (serverId : Option String) : String :=
  "ツール '" ++ toolName ++ "' はサーバー" ++
    (match serverId with
     | some sid => " " ++ sid
     | none => "") ++ "でサポートされていません"

/-- The fallback text `error.message || JSON.stringify(error)` of a
server-reported error. -/
def rpcErrorText (e : RpcError) : String :=
  if e.message = "" then
    String.mk (stringifyVal (Json.obj [("code", Json.num e.code),
                                       ("message", Json.str e.message)]))
  else e.message

/-- Result of a `callTool` call: the value the promise resolves to (`none`
models JS `undefined`, returned when the reply has neither `result` nor
`error`), the new cache, and whether a `tools/call` request was issued. -/
structure CallToolRun where
  result : Option MCPToolResult
  cache : Option (List MCPTool)
  calledRemote : Bool

/-- `MCPClient.callTool`: check `supportsTool` (a cached `listTools`) first —
an unknown tool throws locally and the catch turns it into a failure payload
without any `tools/call` request; a reply with an `error` member becomes a
failure payload carrying the server's message; otherwise the reply's
`result` is returned as-is. -/
def callTool (toolName : String) (serverId : Option String)
    (cache : Option (List MCPTool)) (listNet : ListReply) (callNet : CallReply) :
    CallToolRun :=
  let run := listTools true cache listNet
  if run.returned.any (fun t => t.name == toolName) then
    match callNet with
    | .fail m =>
      { result := some (failurePayload m), cache := run.cache, calledRemote := true }
    | .reply result err =>
      match err with
      | some e =>
        { result := some (failurePayload (rpcErrorText e)), cache := run.cache,
          calledRemote := true }
      | none => { result := result, cache := run.cache, calledRemote := true }
  else
    { result := some (failurePayload (unsupportedMessage toolName serverId)),
      cache := run.cache, calledRemote := false }

/-! ## `findServerForTool` (src/unnamed/part_001, lines 745-770)

Clients are the entries of the `Map<string, Client>` in insertion order;
each client's `listTools()` either yields its tool list or throws (`none` —
the catch logs and the loop continues with the next server). -/

/-- One connected client: server id and the outcome of its `listTools()`. -/
abbrev ClientEntry := String × Option (List MCPTool)

/-- `toolName.includes('.')`. -/
def containsDot (s : String) : Bool :=
  s.data.any (fun c => c == '.')

/-- `toolName.split('.')[0]`: the part before the first `.`. -/
def dotPrefix (s : String) : String :=
  String.mk (s.data.takeWhile (fun c => !(c == '.')))

/-- The search body of the `for` loop: skip a client whose `listTools()`
throws, return the client's id when its tools declare the name. -/
def searchEntry (toolName : String) (c : ClientEntry) : Option String :=
  match c.2 with
  | none => none
  | some ts => if ts.any (fun t => t.name == toolName) then some c.1 else none

/-- Resolve a tool name to a server id. A name containing `.` is split at
the first `.`; when the prefix is a connected server it is returned without
any search. Otherwise every connected server is searched in map iteration
order for the first one declaring the (whole) name. -/
def findServerForTool (clients : List ClientEntry) (toolName : String) :
    Option String :=
  let qualified : Option String :=
    if containsDot toolName then
      let serverId := dotPrefix toolName
      if clients.any (fun c => c.1 == serverId) then some serverId else none
    else none
  match qualified with
  | some sid => some sid
  | none => clients.findSome? (searchEntry toolName)

/-! ## `ServerConfigManager.load` (src/src/mcp/github.ts)

The config file is modelled as absent (`fs.access` rejects), unreadable
(`fs.readFile` or `JSON.parse` would be reached but reading throws), or a
content string. `load` never escapes its outer catch; its observable outcome
is the final `this.config.servers` value (a JSON value: the `servers` branch
assigns `rawConfig.servers` whatever it is) plus the log lines written. -/

/-- The config file as the filesystem presents it. -/
inductive ConfigFile where
  | absent
  | unreadable
  | content (s : String)

/-- The log lines `load` can emit, by call site. -/
inductive LogTag where
  | warnFileMissing
  | warnBadFormat
  | warnNoServers
  | infoLoaded
  | errorLoadFailed
deriving DecidableEq, Repr

/-- Console level of each log line (`console.warn` / `console.error` /
`console.log`). -/
def LogTag.isWarning : LogTag → Bool
  | .warnFileMissing => true
  | .warnBadFormat => true
  | .warnNoServers => true
  | _ => false

/-- JS truthiness of a JSON value. -/
def jsTruthy : Json → Bool
  | .null => false
  | .bool b => b
  | .num n => !(n == 0)
  | .str s => !s.isEmpty
  | .arr _ => true
  | .obj _ => true

/-- JS property access `v[k]`: throws (`.error`) on `null`, yields the field
on objects and `undefined` (`none`) everywhere else. -/
def jsField (v : Json) (k : String) : Except Unit (Option Json) :=
  match v with
  | .null => .error ()
  | .obj ms => .ok ((ms.find? (fun kv => kv.1 == k)).map Prod.snd)
  | _ => .ok none

/-- Truthiness of a possibly-undefined value. -/
def optTruthy : Option Json → Bool
  | none => false
  | some v => jsTruthy v

/-- JS `Object.entries`: own enumerable entries of objects, index/element
pairs of arrays and strings, nothing for other primitives. -/
def jsEntries : Json → List (String × Json)
  | .obj ms => ms
  | .arr es => es.enum.map (fun p => (String.mk (natDigits p.1), p.2))
  | .str s => s.data.enum.map
      (fun p => (String.mk (natDigits p.1), Json.str (String.mk [p.2])))
  | _ => []

/-- `config.x || d` for a possibly-undefined field. -/
def fieldOrDefault (f : Option Json) (d : Json) : Json :=
  match f with
  | some v => if jsTruthy v then v else d
  | none => d

/-- Normalization of one `mcpServers` entry into a ServerConfig record;
throws when the entry value is `null` (property access on `null`). -/
def normalizeEntry (cwd : String) (e : String × Json) : Except Unit Json := do
  let name ← jsField e.2 "name"
  let command ← jsField e.2 "command"
  let args ← jsField e.2 "args"
  let env ← jsField e.2 "env"
  let cwdF ← jsField e.2 "cwd"
  let capabilities ← jsField e.2 "capabilities"
  pure (Json.obj
    [("id", Json.str e.1),
     ("name", fieldOrDefault name (Json.str e.1)),
     ("command", (command.getD Json.null)),
     ("args", fieldOrDefault args (Json.arr [])),
     ("env", fieldOrDefault env (Json.obj [])),
     ("cwd", fieldOrDefault cwdF (Json.str cwd)),
     ("capabilities", fieldOrDefault capabilities (Json.arr []))])

/-- JS `x.length === 0` for the loaded servers value (`undefined === 0` is
false for values without a `length`). -/
def jsLenIsZero : Json → Bool
  | .arr es => es.isEmpty
  | .str s => s.isEmpty
  | _ => false

/-- The final per-branch log line: empty `servers` warns, otherwise an info
line is printed. -/
def lenLog (servers : Json) : LogTag :=
  if jsLenIsZero servers then .warnNoServers else .infoLoaded

/-- The body of `load` after a successful `JSON.parse`, up to the outer
catch: pick the `mcpServers` or `servers` shape, else warn and fall back to
empty. -/
def loadBody (cwd : String) (raw : Json) : Except Unit (Json × List LogTag) := do
  let mcp ← jsField raw "mcpServers"
  if optTruthy mcp then
    let recs ← (jsEntries (mcp.getD Json.null)).mapM (normalizeEntry cwd)
    pure (Json.arr recs, [lenLog (Json.arr recs)])
  else
    let sv ← jsField raw "servers"
    if optTruthy sv then
      let servers := sv.getD Json.null
      pure (servers, [lenLog servers])
    else
      pure (Json.arr [], [.warnBadFormat])

/-- `ServerConfigManager.load`: total over every file state — every throw
inside is caught and degrades to an empty server list with an error log. -/
def load (cwd : String) : ConfigFile → Json × List LogTag
  | .absent => (Json.arr [], [.warnFileMissing])
  | .unreadable => (Json.arr [], [.errorLoadFailed])
  | .content s =>
    match jsonParse s.data with
    | none => (Json.arr [], [.errorLoadFailed])
    | some raw =>
      match loadBody cwd raw with
      | .error _ => (Json.arr [], [.errorLoadFailed])
      | .ok out => out

/-! ## Statement-support definitions -/

/-- A `tools/list` outcome from which no usable tool list can be read: a
caught failure, a falsy `result`, or a `result` without a `tools` field. -/
def isFailureReply : ListReply → Bool
  | .fail => true
  | .reply none => true
  | .reply (some r) => r.tools.isNone

/-- Property access that neither throws nor yields a truthy value. -/
def fieldFalsy (v : Json) (k : String) : Bool :=
  match jsField v k with
  | .error _ => false
  | .ok f => !optTruthy f

/-- A nonempty `\w+` token — the only server/tool names the directive
grammar can carry. -/
def wordToken (s : String) : Bool :=
  !s.data.isEmpty && s.data.all isWordChar

/-- Characters that pass through serialization and re-extraction untouched:
no quote, backslash, brace, slash, control character, or line terminator.
The explicit code-point bound makes the no-control-character fact
immediate; every listed character satisfies it anyway. -/
def safeChar (c : Char) : Bool :=
  decide (0x20 ≤ c.toNat) &&
    (c.isAlpha || c.isDigit || c == ' ' || c == '_' || c == '-' || c == '.' ||
      c == ':' || c == ',')

/-- Scalar JSON values whose serialization stays inside the safe alphabet:
the nesting-free fragment the lazy `{.*?}` group can transport. -/
def safeVal : Json → Bool
  | .null => true
  | .bool _ => true
  | .num _ => true
  | .str s => s.data.all safeChar
  | .arr _ => false
  | .obj _ => false

/-- A flat argument mapping: safe keys and scalar safe values. -/
def safeMembers (ms : List (String × Json)) : Bool :=
  ms.all (fun kv => kv.1.data.all safeChar && safeVal kv.2)

/-- Characters allowed to occur strictly between the braces of a serialized
argument object: nothing that closes the lazy group early (`}`), stops
JS `.` (line terminators), or could open another `tools/call` literal
(`/`). -/
def interiorOk (c : Char) : Bool :=
  !(c == '}') && isJsDot c && !(c == '/')

/-- Two connected servers that both declare a tool named `search`. -/
def demoClients : List ClientEntry :=
  [("serverA", some [{ name := "search", description := "", parameters := Json.null }]),
   ("serverB", some [{ name := "search", description := "", parameters := Json.null }])]

/-! # Theorems -/

/-! ## Supervisor map (claim C5) -/

theorem mapHas_iff (m : List (String × Nat)) (k : String) :
    mapHas m k = true ↔ k ∈ m.map Prod.fst := by
  simp [mapHas, List.any_eq_true, List.mem_map, beq_iff_eq]

theorem startServer_has (st : ManagerState) (cfg : ServerConfig) (child : Nat)
    (hhas : mapHas st.servers cfg.id = true) :
    startServer st cfg child = (st, StartOutcome.alreadyRunning) := by
  unfold startServer
  rw [if_pos hhas]

theorem startServer_fresh (st : ManagerState) (cfg : ServerConfig) (child : Nat)
    (hhas : ¬ mapHas st.servers cfg.id = true) (hcmd : cfg.command ≠ "") :
    startServer st cfg child =
      (⟨st.servers ++ [(cfg.id, child)]⟩, StartOutcome.spawned) := by
  unfold startServer
  rw [if_neg hhas, if_neg hcmd]
  simp [mapSet, hhas]

/-- C5: at most one tracked `ServerHandle` exists per `ServerConfig.id`, and
calling `startServer` twice in a row for the same config without an
intervening `stopServer` leaves exactly one tracked handle for that id; the
second call is a no-op (`alreadyRunning`) that changes nothing and spawns no
second process. -/
theorem startServer_idempotent (st : ManagerState) (cfg : ServerConfig)
    (h1 h2 : Nat) (hnd : (st.servers.map Prod.fst).Nodup)
    (hcmd : cfg.command ≠ "") :
    ((startServer (startServer st cfg h1).1 cfg h2).1.servers.map Prod.fst).Nodup ∧
    List.count cfg.id
      ((startServer (startServer st cfg h1).1 cfg h2).1.servers.map Prod.fst) = 1 ∧
    (startServer (startServer st cfg h1).1 cfg h2).1 = (startServer st cfg h1).1 ∧
    (startServer (startServer st cfg h1).1 cfg h2).2 = StartOutcome.alreadyRunning := by
  by_cases hhas : mapHas st.servers cfg.id = true
  · have hmem : cfg.id ∈ st.servers.map Prod.fst := (mapHas_iff _ _).1 hhas
    simp [startServer_has st cfg h1 hhas, startServer_has st cfg h2 hhas, hnd,
      List.count_eq_one_of_mem hnd hmem]
  · have hmem : cfg.id ∉ st.servers.map Prod.fst := fun hm =>
      hhas ((mapHas_iff _ _).2 hm)
    have hhas2 : mapHas (st.servers ++ [(cfg.id, h1)]) cfg.id = true := by
      rw [mapHas_iff]
      simp
    have e1 := startServer_fresh st cfg h1 hhas hcmd
    have e2 := startServer_has ⟨st.servers ++ [(cfg.id, h1)]⟩ cfg h2 hhas2
    simp [e1, e2, List.nodup_append, hnd, hmem, List.count_append,
      List.count_eq_zero_of_not_mem hmem]

/-- Witness for `startServer_idempotent` at a concrete state and config. -/
theorem startServer_idempotent_witness :
    ((startServer (startServer ⟨[]⟩ ⟨"fs", "node", []⟩ 1).1 ⟨"fs", "node", []⟩ 2).1.servers.map
        Prod.fst).Nodup ∧
    List.count "fs"
      ((startServer (startServer ⟨[]⟩ ⟨"fs", "node", []⟩ 1).1 ⟨"fs", "node", []⟩ 2).1.servers.map
        Prod.fst) = 1 ∧
    (startServer (startServer ⟨[]⟩ ⟨"fs", "node", []⟩ 1).1 ⟨"fs", "node", []⟩ 2).1 =
      (startServer ⟨[]⟩ ⟨"fs", "node", []⟩ 1).1 ∧
    (startServer (startServer ⟨[]⟩ ⟨"fs", "node", []⟩ 1).1 ⟨"fs", "node", []⟩ 2).2 =
      StartOutcome.alreadyRunning :=
  startServer_idempotent ⟨[]⟩ ⟨"fs", "node", []⟩ 1 2 (by simp) (by decide)

/-! ## Startup acknowledgement (claim C8) -/

/-- C8 (counterexample): the claim says the start call rejects on immediate
process exit, but a `close` event with exit code `0` does not settle the
acknowledgement, which the 5-second timeout then resolves as a success. -/
theorem acknowledge_close_zero_resolves :
    acknowledge [StartEvent.procClose (some 0)] = AckResult.resolved := rfl

/-- C8 (amended): the acknowledgement settles on whichever comes first of
first output (success), an `error` event (failure), a `close` event with a
nonzero or null exit code (failure), and the timeout (success); a `close`
event with exit code `0` does not settle it, leaving the remaining events
(ultimately the timeout) to decide. -/
theorem acknowledge_first_event_wins :
    (∀ es, acknowledge (StartEvent.firstOutput :: es) = AckResult.resolved) ∧
    (∀ (c : Option Int) es, c ≠ some 0 →
        acknowledge (StartEvent.procClose c :: es) = AckResult.rejected) ∧
    (∀ es, acknowledge (StartEvent.procError :: es) = AckResult.rejected) ∧
    (∀ es, acknowledge (StartEvent.procClose (some 0) :: es) = acknowledge es) ∧
    acknowledge [] = AckResult.resolved := by
  refine ⟨fun es => rfl, fun c es hc => ?_, fun es => rfl, fun es => ?_, rfl⟩
  · simp [acknowledge, settleOne, hc]
  · simp [acknowledge, settleOne]

/-- Witness for `acknowledge_first_event_wins`: a `close` with a null exit
code (killed by a signal) before anything else rejects the start. -/
theorem acknowledge_first_event_wins_witness :
    acknowledge [StartEvent.procClose none] = AckResult.rejected :=
  acknowledge_first_event_wins.2.1 none [] (by decide)

/-! ## `MCPClient` error containment (claims C6 and C10) -/

/-- C6: the client never propagates an exception. An issued `listTools`
request that fails yields `[]`; `callTool` on a tool absent from the
(possibly cached) descriptor set returns a failure payload without issuing
the remote `tools/call`; a transport-level `tools/call` failure and a
server-reported protocol error both become failure payloads (`isError`)
carrying the message instead of throwing. -/
theorem client_error_containment :
    (∀ (u : Bool) (cache : Option (List MCPTool)), u = false ∨ cache = none →
        (listTools u cache ListReply.fail).returned = []) ∧
    (∀ toolName sid cache listNet callNet,
        ((listTools true cache listNet).returned.any
          (fun t => t.name == toolName)) = false →
        (callTool toolName sid cache listNet callNet).calledRemote = false ∧
        (callTool toolName sid cache listNet callNet).result =
          some (failurePayload (unsupportedMessage toolName sid)) ∧
        (failurePayload (unsupportedMessage toolName sid)).isError = true) ∧
    (∀ toolName sid cache listNet m,
        ((listTools true cache listNet).returned.any
          (fun t => t.name == toolName)) = true →
        (callTool toolName sid cache listNet (CallReply.fail m)).result =
          some (failurePayload m) ∧ (failurePayload m).isError = true) ∧
    (∀ toolName sid cache listNet result e,
        ((listTools true cache listNet).returned.any
          (fun t => t.name == toolName)) = true →
        e.message ≠ "" →
        (callTool toolName sid cache listNet
            (CallReply.reply result (some e))).result =
          some (failurePayload e.message) ∧
        (failurePayload e.message).isError = true) := by
  refine ⟨?_, ?_, ?_, ?_⟩
  · rintro u cache (rfl | rfl)
    · cases cache <;> simp [listTools]
    · cases u <;> simp [listTools]
  · intro toolName sid cache listNet callNet hno
    simp [callTool, hno, failurePayload]
  · intro toolName sid cache listNet m hyes
    simp [callTool, hyes, failurePayload]
  · intro toolName sid cache listNet result e hyes hmsg
    simp [callTool, hyes, failurePayload, rpcErrorText, hmsg]

/-- Witness for `client_error_containment` at concrete inputs: a failing
discovery returns `[]`, and calling the unknown tool `"ls"` with an empty
cache and a failing discovery stays local and returns a failure payload. -/
theorem client_error_containment_witness :
    (listTools false none ListReply.fail).returned = [] ∧
    (callTool "ls" none none ListReply.fail (CallReply.fail "x")).calledRemote = false ∧
    (callTool "ls" none none ListReply.fail (CallReply.fail "x")).result =
      some (failurePayload (unsupportedMessage "ls" none)) ∧
    (failurePayload (unsupportedMessage "ls" none)).isError = true :=
  ⟨client_error_containment.1 false none (Or.inl rfl),
   client_error_containment.2.1 "ls" none none ListReply.fail (CallReply.fail "x") rfl⟩

/-- C10: the tool cache is only written with a list taken from a successful
`tools/list` response; a failing or toolless outcome leaves the cache
untouched and returns `[]`, so a later `listTools` with the still-empty
cache issues a fresh request rather than serving a cached empty result. -/
theorem toolCache_written_only_on_success :
    (∀ (u : Bool) (cache : Option (List MCPTool)) net,
        (listTools u cache net).cache = cache ∨
        ∃ ts, net = ListReply.reply (some ⟨some ts⟩) ∧
          (listTools u cache net).cache = some ts ∧
          (listTools u cache net).returned = ts) ∧
    (∀ (u : Bool) net, isFailureReply net = true →
        listTools u none net =
          { returned := [], cache := none, requested := true }) ∧
    (∀ net net2, isFailureReply net = true →
        (listTools true (listTools true none net).cache net2).requested = true) := by
  refine ⟨?_, ?_, ?_⟩
  · intro u cache net
    match cache, u with
    | some cached, true => simp [listTools]
    | some cached, false =>
      cases net with
      | fail => simp [listTools]
      | reply r =>
        cases r with
        | none => simp [listTools]
        | some r0 =>
          cases hr : r0.tools with
          | none => simp [listTools, hr]
          | some ts => exact Or.inr ⟨ts, by cases r0; cases hr; simp [listTools]⟩
    | none, u =>
      cases net with
      | fail => cases u <;> simp [listTools]
      | reply r =>
        cases r with
        | none => cases u <;> simp [listTools]
        | some r0 =>
          cases hr : r0.tools with
          | none => cases u <;> simp [listTools, hr]
          | some ts =>
            exact Or.inr ⟨ts, by cases r0; cases hr; cases u <;> simp [listTools]⟩
  · intro u net hfail
    cases net with
    | fail => cases u <;> simp [listTools]
    | reply r =>
      cases r with
      | none => cases u <;> simp [listTools]
      | some r0 =>
        cases hr : r0.tools with
        | none => cases u <;> simp [listTools, hr]
        | some ts => simp [isFailureReply, hr] at hfail
  · intro net net2 hfail
    have hc : (listTools true none net).cache = none := by
      cases net with
      | fail => simp [listTools]
      | reply r =>
        cases r with
        | none => simp [listTools]
        | some r0 =>
          cases hr : r0.tools with
          | none => simp [listTools, hr]
          | some ts => simp [isFailureReply, hr] at hfail
    rw [hc]
    cases net2 with
    | fail => simp [listTools]
    | reply r =>
      cases r with
      | none => simp [listTools]
      | some r0 => cases hr : r0.tools <;> simp [listTools, hr]

/-- Witness for `toolCache_written_only_on_success` at concrete inputs. -/
theorem toolCache_written_only_on_success_witness :
    ((listTools true none ListReply.fail).cache = none ∨
      ∃ ts, ListReply.fail = ListReply.reply (some ⟨some ts⟩) ∧
        (listTools true none ListReply.fail).cache = some ts ∧
        (listTools true none ListReply.fail).returned = ts) ∧
    listTools true none ListReply.fail =
      { returned := [], cache := none, requested := true } ∧
    (listTools true (listTools true none ListReply.fail).cache
        (ListReply.reply none)).requested = true :=
  ⟨toolCache_written_only_on_success.1 true none ListReply.fail,
   toolCache_written_only_on_success.2.1 true ListReply.fail rfl,
   toolCache_written_only_on_success.2.2 ListReply.fail (ListReply.reply none) rfl⟩

/-! ## Tool-name resolution (claim C7) -/

/-- C7 (counterexample): `server__tool` qualification is not supported.
With `serverA` connected and declaring `search`, resolving
`serverA__search` does not return `serverA` — the name contains no `.`, so
the whole string is searched as an unqualified tool name and nothing
declares it. -/
theorem findServerForTool_dunder_counterexample :
    findServerForTool demoClients "serverA__search" = none ∧
    demoClients.map Prod.fst = ["serverA", "serverB"] ∧
    findServerForTool demoClients "search" = some "serverA" ∧
    findServerForTool demoClients "serverA.search" = some "serverA" :=
  ⟨rfl, rfl, rfl, rfl⟩

/-- C7 (amended): a name qualified as `server.tool` (the `server__tool` form
is not recognized) resolves to the prefix server directly — regardless of
any server's declared tools — provided that server is connected; an
unqualified name resolves to the first connected server, in map iteration
(initialization) order, that declares it. -/
theorem findServerForTool_resolution :
    (∀ (clients : List ClientEntry) (toolName : String),
        containsDot toolName = true →
        clients.any (fun c => c.1 == dotPrefix toolName) = true →
        findServerForTool clients toolName = some (dotPrefix toolName)) ∧
    (∀ (pre post : List ClientEntry) (sid : String) (ts : List MCPTool)
        (toolName : String),
        containsDot toolName = false →
        ts.any (fun t => t.name == toolName) = true →
        (∀ e ∈ pre, searchEntry toolName e = none) →
        findServerForTool (pre ++ (sid, some ts) :: post) toolName = some sid) := by
  constructor
  · intro clients toolName hdot hhas
    simp only [findServerForTool, hdot, if_true, hhas]
  · intro pre post sid ts toolName hdot hts hpre
    simp only [findServerForTool, hdot, Bool.false_eq_true, if_false]
    rw [List.findSome?_append]
    have hpre0 : List.findSome? (searchEntry toolName) pre = none := by
      rw [List.findSome?_eq_none_iff]
      exact hpre
    rw [hpre0, List.findSome?_cons]
    have hentry : searchEntry toolName (sid, some ts) = some sid := by
      simp only [searchEntry, hts, if_true]
    rw [hentry]
    rfl

/-- Witness for `findServerForTool_resolution` at concrete inputs: the
qualified `serverA.search` resolves to `serverA`, and the ambiguous
unqualified `search` resolves to the first declaring server. -/
theorem findServerForTool_resolution_witness :
    findServerForTool demoClients "serverA.search" =
      some (dotPrefix "serverA.search") ∧
    findServerForTool
      ([] ++ ("serverA",
          some [{ name := "search", description := "", parameters := Json.null }]) ::
        [("serverB",
          some [{ name := "search", description := "", parameters := Json.null }])])
      "search" = some "serverA" :=
  ⟨findServerForTool_resolution.1 demoClients "serverA.search" rfl rfl,
   findServerForTool_resolution.2 []
     [("serverB", some [{ name := "search", description := "", parameters := Json.null }])]
     "serverA" [{ name := "search", description := "", parameters := Json.null }]
     "search" rfl rfl (by intro e he; cases he)⟩

/-! ## `ServerConfigManager.load` (claim C9) -/

/-- C9 (counterexample): a top level with neither an `mcpServers` mapping
nor a `servers` array can still produce a non-empty, non-sequence result:
for the file content `{"servers": 5}` the truthy number `5` is taken as the
server list verbatim, an info line (not a warning) is logged, and the
result is not the empty sequence the claim requires. -/
theorem load_truthy_servers_counterexample :
    load "" (ConfigFile.content "\x7b\"servers\": 5\x7d") =
      (Json.num 5, [LogTag.infoLoaded]) ∧
    LogTag.infoLoaded.isWarning = false :=
  ⟨rfl, rfl⟩

/-- C9 (amended): for every config file that is absent, unreadable
(including an unparsable or `null` top level), or whose top level has
neither a truthy `mcpServers` value nor a truthy `servers` value, `load`
yields the empty server sequence together with a single diagnostic — a
warning for the absent and unrecognized-shape cases, an error-level line for
the unreadable ones — and, being a total function whose throws are all
caught, it never escapes with an exception. -/
theorem load_degrades_to_empty (cwd : String) :
    (load cwd ConfigFile.absent = (Json.arr [], [LogTag.warnFileMissing]) ∧
      LogTag.warnFileMissing.isWarning = true) ∧
    load cwd ConfigFile.unreadable = (Json.arr [], [LogTag.errorLoadFailed]) ∧
    (∀ s, jsonParse s.data = none →
        load cwd (ConfigFile.content s) = (Json.arr [], [LogTag.errorLoadFailed])) ∧
    (∀ s, jsonParse s.data = some Json.null →
        load cwd (ConfigFile.content s) = (Json.arr [], [LogTag.errorLoadFailed])) ∧
    (∀ s v, jsonParse s.data = some v →
        fieldFalsy v "mcpServers" = true → fieldFalsy v "servers" = true →
        load cwd (ConfigFile.content s) =
          (Json.arr [], [LogTag.warnBadFormat]) ∧
        LogTag.warnBadFormat.isWarning = true) := by
  refine ⟨⟨rfl, rfl⟩, rfl, ?_, ?_, ?_⟩
  · intro s hp
    simp [load, hp]
  · intro s hp
    simp [load, hp, loadBody, jsField, Bind.bind, Except.bind]
  · intro s v hp hm hs
    refine ⟨?_, rfl⟩
    match hm0 : jsField v "mcpServers" with
    | .error e => rw [fieldFalsy, hm0] at hm; cases hm
    | .ok f =>
      have hft : optTruthy f = false := by
        rw [fieldFalsy, hm0] at hm
        simpa using hm
      match hs0 : jsField v "servers" with
      | .error e => rw [fieldFalsy, hs0] at hs; cases hs
      | .ok g =>
        have hgt : optTruthy g = false := by
          rw [fieldFalsy, hs0] at hs
          simpa using hs
        simp [load, hp, loadBody, hm0, hs0, hft, hgt, Bind.bind, Except.bind,
          Pure.pure, Except.pure]

/-- Witness for `load_degrades_to_empty`: the file content `[]` parses but
has neither recognized key, so `load` warns and yields no servers; an
unparsable file degrades the same way with an error log. -/
theorem load_degrades_to_empty_witness :
    (load "" (ConfigFile.content "[]") = (Json.arr [], [LogTag.warnBadFormat]) ∧
      LogTag.warnBadFormat.isWarning = true) ∧
    load "" (ConfigFile.content "nonsense") =
      (Json.arr [], [LogTag.errorLoadFailed]) :=
  ⟨(load_degrades_to_empty "").2.2.2.2 "[]" (Json.arr []) rfl rfl rfl,
   (load_degrades_to_empty "").2.2.1 "nonsense" rfl⟩

/-! ## Anatomy of the regex matchers -/

theorem takeWhile1_head (p : Char → Bool) (l : List Char)
    (pr : List Char × List Char) (h : takeWhile1 p l = some pr) :
    ∃ c cs, l = c :: cs ∧ p c = true := by
  cases l with
  | nil => cases h
  | cons c cs =>
    by_cases hp : p c = true
    · exact ⟨c, cs, rfl, hp⟩
    · rw [takeWhile1, if_neg hp] at h
      cases h

theorem matchQualAt_inv (l : List Char) (cap : QualCap)
    (hq : matchQualAt l = some cap) :
    ∃ (r0 : List Char) (p1 p2 p3 p4 p5 : List Char × List Char)
      (r6 : List Char) (p6 : List Char × List Char),
      dropLit kwChars l = some r0 ∧
      takeWhile1 isJsSpace r0 = some p1 ∧
      takeWhile1 isWordChar p1.2 = some p2 ∧
      takeWhile1 isJsSpace p2.2 = some p3 ∧
      takeWhile1 isWordChar p3.2 = some p4 ∧
      takeWhile1 isJsSpace p4.2 = some p5 ∧
      expectBrace p5.2 = some r6 ∧
      lazyBody r6 = some p6 ∧
      cap = { server := p2.1, tool := p4.1, args := '{' :: (p6.1 ++ ['}']),
              len := kwChars.length + p1.1.length + p2.1.length + p3.1.length +
                     p4.1.length + p5.1.length + (p6.1.length + 2) } := by
  unfold matchQualAt at hq
  cases h0 : dropLit kwChars l with
  | none => rw [h0] at hq; cases hq
  | some r0 =>
    rw [h0, Option.some_bind] at hq
    cases h1 : takeWhile1 isJsSpace r0 with
    | none => rw [h1] at hq; cases hq
    | some p1 =>
      rw [h1, Option.some_bind] at hq
      cases h2 : takeWhile1 isWordChar p1.2 with
      | none => rw [h2] at hq; cases hq
      | some p2 =>
        rw [h2, Option.some_bind] at hq
        cases h3 : takeWhile1 isJsSpace p2.2 with
        | none => rw [h3] at hq; cases hq
        | some p3 =>
          rw [h3, Option.some_bind] at hq
          cases h4 : takeWhile1 isWordChar p3.2 with
          | none => rw [h4] at hq; cases hq
          | some p4 =>
            rw [h4, Option.some_bind] at hq
            cases h5 : takeWhile1 isJsSpace p4.2 with
            | none => rw [h5] at hq; cases hq
            | some p5 =>
              rw [h5, Option.some_bind] at hq
              cases h6 : expectBrace p5.2 with
              | none => rw [h6] at hq; cases hq
              | some r6 =>
                rw [h6, Option.some_bind] at hq
                cases h7 : lazyBody r6 with
                | none => rw [h7] at hq; cases hq
                | some p6 =>
                  rw [h7, Option.map_some'] at hq
                  exact ⟨r0, p1, p2, p3, p4, p5, r6, p6, rfl, h1, h2, h3, h4,
                    h5, h6, h7, (Option.some_inj.mp hq).symm⟩

theorem matchUnqualAt_inv (l : List Char) (cap : UnqualCap)
    (hq : matchUnqualAt l = some cap) :
    ∃ (r0 : List Char) (p1 p2 p3 : List Char × List Char)
      (r4 : List Char) (p4 : List Char × List Char),
      dropLit kwChars l = some r0 ∧
      takeWhile1 isJsSpace r0 = some p1 ∧
      takeWhile1 isWordChar p1.2 = some p2 ∧
      takeWhile1 isJsSpace p2.2 = some p3 ∧
      expectBrace p3.2 = some r4 ∧
      lazyBody r4 = some p4 ∧
      cap = { tool := p2.1, args := '{' :: (p4.1 ++ ['}']),
              len := kwChars.length + p1.1.length + p2.1.length + p3.1.length +
                     (p4.1.length + 2) } := by
  unfold matchUnqualAt at hq
  cases h0 : dropLit kwChars l with
  | none => rw [h0] at hq; cases hq
  | some r0 =>
    rw [h0, Option.some_bind] at hq
    cases h1 : takeWhile1 isJsSpace r0 with
    | none => rw [h1] at hq; cases hq
    | some p1 =>
      rw [h1, Option.some_bind] at hq
      cases h2 : takeWhile1 isWordChar p1.2 with
      | none => rw [h2] at hq; cases hq
      | some p2 =>
        rw [h2, Option.some_bind] at hq
        cases h3 : takeWhile1 isJsSpace p2.2 with
        | none => rw [h3] at hq; cases hq
        | some p3 =>
          rw [h3, Option.some_bind] at hq
          cases h4 : expectBrace p3.2 with
          | none => rw [h4] at hq; cases hq
          | some r4 =>
            rw [h4, Option.some_bind] at hq
            cases h5 : lazyBody r4 with
            | none => rw [h5] at hq; cases hq
            | some p4 =>
              rw [h5, Option.map_some'] at hq
              exact ⟨r0, p1, p2, p3, r4, p4, rfl, h1, h2, h3, h4, h5,
                (Option.some_inj.mp hq).symm⟩

theorem matchQualAt_len_pos (l : List Char) (cap : QualCap)
    (hq : matchQualAt l = some cap) : 0 < cap.len := by
  obtain ⟨_, _, _, _, _, _, _, _, -, -, -, -, -, -, -, -, hcap⟩ :=
    matchQualAt_inv l cap hq
  subst hcap
  simp [kwChars]

theorem matchUnqualAt_len_pos (l : List Char) (cap : UnqualCap)
    (hq : matchUnqualAt l = some cap) : 0 < cap.len := by
  obtain ⟨_, _, _, _, _, _, -, -, -, -, -, -, hcap⟩ :=
    matchUnqualAt_inv l cap hq
  subst hcap
  simp [kwChars]

/-! ## Claim C1: no double extraction from a qualified span -/

theorem matchQual_excludes_unqual (l : List Char) (cap : QualCap)
    (hq : matchQualAt l = some cap) : matchUnqualAt l = none := by
  obtain ⟨r0, p1, p2, p3, p4, p5, r6, p6, h0, h1, h2, h3, h4, h5, h6, h7,
    hcap⟩ := matchQualAt_inv l cap hq
  obtain ⟨c, cs, hr3, hw⟩ := takeWhile1_head _ _ _ h4
  have hbrace : expectBrace p3.2 = none := by
    rw [hr3, expectBrace]
    have hc : ¬ c = '{' := by
      intro he
      subst he
      simp [isWordChar] at hw
    rw [if_neg hc]
  unfold matchUnqualAt
  rw [h0, Option.some_bind, h1, Option.some_bind, h2, Option.some_bind, h3,
    Option.some_bind, hbrace, Option.none_bind]

/-- C1: a span matched by the qualified directive form yields exactly one
request and the unqualified pattern can never match at the start of such a
span (the qualified match puts a word character where the unqualified
pattern requires the `{`), so it never produces a second request from the
same span; on the claim's example input extraction yields exactly the one
request `filesystem.ls`. -/
theorem qualified_span_extracted_once :
    (∀ (l : List Char) (cap : QualCap), matchQualAt l = some cap →
        matchUnqualAt l = none) ∧
    extractToolCalls "tools/call filesystem ls \x7b\"path\":\"/\"\x7d" =
      [{ tool := "filesystem.ls", args := Json.obj [("path", Json.str "/")] }] :=
  ⟨matchQual_excludes_unqual, rfl⟩

/-- Witness for `qualified_span_extracted_once` at a concrete qualified
span. -/
theorem qualified_span_extracted_once_witness :
    matchUnqualAt ("tools/call a b \x7b\x7d".data) = none :=
  qualified_span_extracted_once.1 ("tools/call a b \x7b\x7d".data) _ rfl


/-! ## The loops as match scans (claims C4 and C3) -/

theorem qualLoop_eq_scan (fuel : Nat) :
    ∀ (l : List Char) (pos : Nat) (calls : List ToolCall),
      qualLoop fuel l calls =
        calls ++ (scanQual fuel l pos).filterMap (fun pm => mkQualCall pm.2) := by
  induction fuel with
  | zero => intro l pos calls; simp [qualLoop, scanQual]
  | succ fuel ih =>
    intro l pos calls
    simp only [qualLoop, scanQual]
    cases hm : matchQualAt l with
    | some m =>
      cases hj : mkQualCall m with
      | some call =>
        simp only [hj, List.filterMap_cons]
        rw [ih (l.drop m.len) (pos + m.len) (calls ++ [call]),
          List.append_assoc]
        rfl
      | none =>
        simp only [hj, List.filterMap_cons]
        exact ih (l.drop m.len) (pos + m.len) calls
    | none =>
      cases l with
      | nil => simp
      | cons c tl => exact ih tl (pos + 1) calls

theorem unqualLoop_eq_scan (fuel : Nat) :
    ∀ (l : List Char) (pos tIdx : Nat) (calls : List ToolCall),
      unqualLoop fuel l tIdx calls =
        calls ++
          (scanUnqual fuel l pos tIdx).filterMap (fun pm => mkUnqualCall pm.2) := by
  induction fuel with
  | zero => intro l pos tIdx calls; simp [unqualLoop, scanUnqual]
  | succ fuel ih =>
    intro l pos tIdx calls
    simp only [unqualLoop, scanUnqual]
    cases hm : matchUnqualAt l with
    | some m =>
      cases hg : (jsTestQual (l.take m.len) tIdx).1 with
      | true =>
        simp only [hg, if_pos rfl]
        exact ih (l.drop m.len) (pos + m.len) _ calls
      | false =>
        simp only [hg, if_neg Bool.false_ne_true]
        cases hj : mkUnqualCall m with
        | some call =>
          simp only [hj, List.filterMap_cons]
          rw [ih (l.drop m.len) (pos + m.len) _ (calls ++ [call]),
            List.append_assoc]
          rfl
        | none =>
          simp only [hj, List.filterMap_cons]
          exact ih (l.drop m.len) (pos + m.len) _ calls
    | none =>
      cases l with
      | nil => simp
      | cons c tl => exact ih tl (pos + 1) tIdx calls

/-- Decomposition of `extractToolCalls`: the output is exactly the parseable
regex-1 matches followed by the parseable guard-surviving regex-2 matches —
each match contributes independently through its own `JSON.parse`. -/
theorem extract_decomposition (content : String) :
    extractToolCalls content =
      (qualMatches content).filterMap (fun pm => mkQualCall pm.2) ++
      (unqualMatches content).filterMap (fun pm => mkUnqualCall pm.2) := by
  unfold extractToolCalls qualMatches unqualMatches
  rw [qualLoop_eq_scan (content.data.length + 1) content.data 0 [],
    unqualLoop_eq_scan (content.data.length + 1) content.data 0 0]
  simp

/-- C4: `extractToolCalls` is a total function of the input text, and a
directive whose JSON object literal fails to parse is discarded alone: the
output is the independent `filterMap` of the per-match `JSON.parse` over the
two match scans, so every other match contributes exactly as it would have
without the failing one. -/
theorem extract_total_and_drops_only_bad_matches (content : String) :
    extractToolCalls content =
      (qualMatches content).filterMap (fun pm => mkQualCall pm.2) ++
      (unqualMatches content).filterMap (fun pm => mkUnqualCall pm.2) :=
  extract_decomposition content

/-! ## Match positions are increasing within each pass (claim C3) -/

theorem scanQual_mono (fuel : Nat) :
    ∀ (l : List Char) (pos : Nat),
      (∀ q ∈ scanQual fuel l pos, pos ≤ q.1) ∧
      (scanQual fuel l pos).Pairwise (fun a b => a.1 < b.1) := by
  induction fuel with
  | zero => intro l pos; simp [scanQual]
  | succ fuel ih =>
    intro l pos
    simp only [scanQual]
    cases hm : matchQualAt l with
    | some m =>
      have hlen := matchQualAt_len_pos l m hm
      obtain ⟨hge, hpw⟩ := ih (l.drop m.len) (pos + m.len)
      constructor
      · intro q hq
        rcases List.mem_cons.mp hq with h | h
        · subst h; exact le_refl _
        · exact le_trans (Nat.le_add_right _ _) (hge q h)
      · rw [List.pairwise_cons]
        exact ⟨fun q hq => lt_of_lt_of_le (by omega) (hge q hq), hpw⟩
    | none =>
      cases l with
      | nil => simp
      | cons c tl =>
        obtain ⟨hge, hpw⟩ := ih tl (pos + 1)
        exact ⟨fun q hq => le_trans (by omega) (hge q hq), hpw⟩

theorem scanUnqual_mono (fuel : Nat) :
    ∀ (l : List Char) (pos tIdx : Nat),
      (∀ q ∈ scanUnqual fuel l pos tIdx, pos ≤ q.1) ∧
      (scanUnqual fuel l pos tIdx).Pairwise (fun a b => a.1 < b.1) := by
  induction fuel with
  | zero => intro l pos tIdx; simp [scanUnqual]
  | succ fuel ih =>
    intro l pos tIdx
    simp only [scanUnqual]
    cases hm : matchUnqualAt l with
    | some m =>
      have hlen := matchUnqualAt_len_pos l m hm
      cases hg : (jsTestQual (l.take m.len) tIdx).1 with
      | true =>
        simp only [hg, if_pos rfl]
        obtain ⟨hge, hpw⟩ := ih (l.drop m.len) (pos + m.len) _
        exact ⟨fun q hq => le_trans (Nat.le_add_right _ _) (hge q hq), hpw⟩
      | false =>
        simp only [hg, if_neg Bool.false_ne_true]
        obtain ⟨hge, hpw⟩ := ih (l.drop m.len) (pos + m.len) _
        constructor
        · intro q hq
          rcases List.mem_cons.mp hq with h | h
          · subst h; exact le_refl _
          · exact le_trans (Nat.le_add_right _ _) (hge q h)
        · rw [List.pairwise_cons]
          exact ⟨fun q hq => lt_of_lt_of_le (by omega) (hge q hq), hpw⟩
    | none =>
      cases l with
      | nil => simp
      | cons c tl =>
        obtain ⟨hge, hpw⟩ := ih tl (pos + 1) tIdx
        exact ⟨fun q hq => le_trans (by omega) (hge q hq), hpw⟩

/-- C3 (counterexample): with an unqualified directive at offset 0 and a
qualified one at offset 22, extraction returns the qualified request first —
the output is not ordered by first occurrence in the text. -/
theorem extract_order_counterexample :
    extractToolCalls
        "tools/call ls \x7b\"a\":1\x7d tools/call srv tool \x7b\"b\":2\x7d" =
      [{ tool := "srv.tool", args := Json.obj [("b", Json.num 2)] },
       { tool := "ls", args := Json.obj [("a", Json.num 1)] }] ∧
    (qualMatches
        "tools/call ls \x7b\"a\":1\x7d tools/call srv tool \x7b\"b\":2\x7d").map
      Prod.fst = [22] ∧
    (unqualMatches
        "tools/call ls \x7b\"a\":1\x7d tools/call srv tool \x7b\"b\":2\x7d").map
      Prod.fst = [0] :=
  ⟨rfl, rfl, rfl⟩

/-- C3 (amended): the output consists of all qualified-form requests, in
first-occurrence order of their directives, followed by all unqualified-form
requests, again in first-occurrence order; the two passes are not
interleaved, so across the two forms global first-occurrence order does not
hold. -/
theorem extract_two_pass_ordering (content : String) :
    extractToolCalls content =
      (qualMatches content).filterMap (fun pm => mkQualCall pm.2) ++
      (unqualMatches content).filterMap (fun pm => mkUnqualCall pm.2) ∧
    (qualMatches content).Pairwise (fun a b => a.1 < b.1) ∧
    (unqualMatches content).Pairwise (fun a b => a.1 < b.1) :=
  ⟨extract_decomposition content,
   (scanQual_mono (content.data.length + 1) content.data 0).2,
   (scanUnqual_mono (content.data.length + 1) content.data 0 0).2⟩

/-! ## Round-trip groundwork (claim C2): exact matcher runs -/

theorem dropLit_self (p r : List Char) : dropLit p (p ++ r) = some r := by
  induction p with
  | nil => rfl
  | cons a ps ih => simp [dropLit, ih]

theorem dropLit_inv (p : List Char) :
    ∀ l r, dropLit p l = some r → l = p ++ r := by
  induction p with
  | nil =>
    intro l r h
    cases h
    rfl
  | cons a ps ih =>
    intro l r h
    cases l with
    | nil => cases h
    | cons c cs =>
      rw [dropLit] at h
      by_cases hc : (c == a) = true
      · rw [if_pos hc] at h
        have hca : c = a := beq_iff_eq.mp hc
        rw [List.cons_append, ← ih cs r h, hca]
      · rw [if_neg hc] at h
        cases h

theorem takeWhile_append_exact (p : Char → Bool) (w r : List Char)
    (hw : ∀ c ∈ w, p c = true)
    (hr : ∀ c cs, r = c :: cs → p c = false) :
    (w ++ r).takeWhile p = w ∧ (w ++ r).dropWhile p = r := by
  induction w with
  | nil =>
    simp only [List.nil_append]
    cases r with
    | nil => simp
    | cons c cs =>
      have hc := hr c cs rfl
      simp [List.takeWhile_cons, List.dropWhile_cons, hc]
  | cons a w ih =>
    have ha : p a = true := hw a (by simp)
    have ih2 := ih (fun c hc => hw c (by simp [hc]))
    simp [List.takeWhile_cons, List.dropWhile_cons, ha, ih2.1, ih2.2]

theorem takeWhile1_exact (p : Char → Bool) (w r : List Char) (hw : w ≠ [])
    (hall : ∀ c ∈ w, p c = true)
    (hr : ∀ c cs, r = c :: cs → p c = false) :
    takeWhile1 p (w ++ r) = some (w, r) := by
  cases w with
  | nil => exact absurd rfl hw
  | cons a w2 =>
    have ha : p a = true := hall a (by simp)
    have h2 := takeWhile_append_exact p w2 r (fun c hc => hall c (by simp [hc])) hr
    simp [takeWhile1, ha, h2.1, h2.2]

theorem lazyBody_exact (b r : List Char)
    (hb : ∀ c ∈ b, (c == '}') = false ∧ isJsDot c = true) :
    lazyBody (b ++ '}' :: r) = some (b, r) := by
  induction b with
  | nil => simp [lazyBody]
  | cons c cs ih =>
    obtain ⟨h1, h2⟩ := hb c (by simp)
    have ih2 := ih (fun d hd => hb d (by simp [hd]))
    simp [lazyBody, h1, h2, ih2]

theorem expectBrace_cons (r : List Char) : expectBrace ('{' :: r) = some r := by
  simp [expectBrace]

/-! Character-class facts -/

theorem wordChar_ne (c x : Char) (hc : isWordChar c = true)
    (hx : isWordChar x = false) : c ≠ x := by
  intro he
  rw [he] at hc
  rw [hx] at hc
  cases hc

theorem safeChar_ne (c x : Char) (hc : safeChar c = true)
    (hx : safeChar x = false) : c ≠ x := by
  intro he
  rw [he] at hc
  rw [hx] at hc
  cases hc

theorem word_not_space (c : Char) (h : isWordChar c = true) :
    isJsSpace c = false := by
  have h1 := wordChar_ne c ' ' h (by decide)
  have h2 := wordChar_ne c '\t' h (by decide)
  have h3 := wordChar_ne c '\n' h (by decide)
  have h4 := wordChar_ne c '\r' h (by decide)
  have h5 := wordChar_ne c '\x0b' h (by decide)
  have h6 := wordChar_ne c '\x0c' h (by decide)
  simp [isJsSpace, h1, h2, h3, h4, h5, h6]

theorem word_not_slash (c : Char) (h : isWordChar c = true) : c ≠ '/' :=
  wordChar_ne c '/' h (by decide)

theorem safeChar_bound (c : Char) (h : safeChar c = true) : 0x20 ≤ c.toNat := by
  have := ((Bool.and_eq_true _ _).mp h).1
  exact of_decide_eq_true this

theorem escChar_safe (c : Char) (hc : safeChar c = true) : escChar c = [c] := by
  have hb := safeChar_bound c hc
  have h1 := safeChar_ne c '"' hc (by decide)
  have h2 := safeChar_ne c '\\' hc (by decide)
  have h3 := safeChar_ne c '\n' hc (by decide)
  have h4 := safeChar_ne c '\r' hc (by decide)
  have h5 := safeChar_ne c '\t' hc (by decide)
  have h6 := safeChar_ne c '\x08' hc (by decide)
  have h7 := safeChar_ne c '\x0c' hc (by decide)
  have h8 : ¬ (c.toNat < 0x20) := by omega
  simp [escChar, h1, h2, h3, h4, h5, h6, h7, h8]

theorem escapeStr_safe (s : List Char) (hs : ∀ c ∈ s, safeChar c = true) :
    escapeStr s = s := by
  induction s with
  | nil => rfl
  | cons c cs ih =>
    have h1 := escChar_safe c (hs c (by simp))
    have h2 := ih (fun d hd => hs d (by simp [hd]))
    simp [escapeStr, h1] at h2 ⊢
    exact h2

theorem safeChar_interior (c : Char) (hc : safeChar c = true) :
    interiorOk c = true := by
  have h1 := safeChar_ne c '}' hc (by decide)
  have h2 := safeChar_ne c '/' hc (by decide)
  have h3 := safeChar_ne c '\n' hc (by decide)
  have h4 := safeChar_ne c '\r' hc (by decide)
  have h5 := safeChar_ne c (Char.ofNat 0x2028) hc (by decide)
  have h6 := safeChar_ne c (Char.ofNat 0x2029) hc (by decide)
  simp [interiorOk, isJsDot, h1, h2, h3, h4, h5, h6]

/-! Decimal numerals round-trip -/

theorem hexDigitChar_lt10 (k : Nat) (h : k < 10) :
    (hexDigitChar k).isDigit = true ∧ (hexDigitChar k).toNat = 48 + k ∧
    interiorOk (hexDigitChar k) = true ∧ isJsonWs (hexDigitChar k) = false := by
  interval_cases k <;> exact ⟨rfl, rfl, rfl, rfl⟩

theorem natDigits_spec (n : Nat) :
    ∀ c ∈ natDigits n, ∃ k, k < 10 ∧ c = hexDigitChar k := by
  induction n using Nat.strong_induction_on with
  | _ n ih =>
    rw [natDigits]
    split
    · rename_i h
      intro c hc
      simp at hc
      exact ⟨n, h, hc⟩
    · rename_i h
      intro c hc
      rw [List.mem_append] at hc
      rcases hc with hc | hc
      · exact ih (n / 10) (Nat.div_lt_self (by omega) (by norm_num)) c hc
      · simp at hc
        exact ⟨n % 10, Nat.mod_lt _ (by norm_num), hc⟩

theorem natDigits_ne_nil (n : Nat) : natDigits n ≠ [] := by
  rw [natDigits]
  split <;> simp

theorem readDigits_append (n : Nat) :
    ∀ acc rest, readDigits acc (natDigits n ++ rest) =
      readDigits (acc * 10 ^ (natDigits n).length + n) rest := by
  induction n using Nat.strong_induction_on with
  | _ n ih =>
    intro acc rest
    by_cases h : n < 10
    · rw [natDigits, dif_pos h]
      obtain ⟨hd, ht, -, -⟩ := hexDigitChar_lt10 n h
      simp only [List.singleton_append, List.length_singleton, pow_one]
      rw [readDigits, if_pos hd, ht]
      congr 1
      omega
    · rw [natDigits, dif_neg h]
      have hlt : n / 10 < n := Nat.div_lt_self (by omega) (by norm_num)
      rw [List.append_assoc, ih (n / 10) hlt acc _]
      obtain ⟨hd, ht, -, -⟩ := hexDigitChar_lt10 (n % 10) (Nat.mod_lt _ (by norm_num))
      simp only [List.singleton_append]
      rw [readDigits, if_pos hd, ht]
      congr 1
      have hmod := Nat.div_add_mod n 10
      have hpow : (10 : Nat) ^ (natDigits (n / 10) ++ [hexDigitChar (n % 10)]).length =
          10 ^ (natDigits (n / 10)).length * 10 := by
        rw [List.length_append, List.length_singleton, pow_succ]
      rw [hpow]
      ring_nf
      omega

theorem readDigits_exact (n : Nat) (rest : List Char)
    (hr : ∀ c cs, rest = c :: cs → c.isDigit = false) :
    readDigits 0 (natDigits n ++ rest) = (n, rest) := by
  rw [readDigits_append]
  simp only [Nat.zero_mul, Nat.zero_add]
  cases rest with
  | nil => rw [readDigits]
  | cons c cs => rw [readDigits, if_neg (by simp [hr c cs rfl])]

theorem parseNumNat_natDigits (n : Nat) (rest : List Char)
    (hr : ∀ c cs, rest = c :: cs → c.isDigit = false ∧ (c == '.') = false ∧
      (c == 'e') = false ∧ (c == 'E') = false) :
    parseNumNat (natDigits n ++ rest) = some (n, rest) := by
  cases hd : natDigits n with
  | nil => exact absurd hd (natDigits_ne_nil n)
  | cons c0 cs0 =>
    have hc0 : c0.isDigit = true := by
      obtain ⟨k, hk, he⟩ := natDigits_spec n c0 (by rw [hd]; simp)
      rw [he]
      exact (hexDigitChar_lt10 k hk).1
    have hread : readDigits 0 (natDigits n ++ rest) = (n, rest) :=
      readDigits_exact n rest (fun c cs hc => (hr c cs hc).1)
    rw [hd, List.cons_append] at hread
    rw [List.cons_append, parseNumNat, if_pos hc0]
    rw [hread]
    cases rest with
    | nil => rfl
    | cons d ds =>
      obtain ⟨-, h1, h2, h3⟩ := hr d ds rfl
      simp [h1, h2, h3]

theorem intChars_head_facts (m : Int) (c0 : Char) (r0 : List Char)
    (hd : intChars m = c0 :: r0) :
    c0 ≠ '{' ∧ c0 ≠ '[' ∧ c0 ≠ '"' ∧ c0 ≠ 't' ∧ c0 ≠ 'f' ∧ c0 ≠ 'n' ∧
    isJsonWs c0 = false := by
  have hmem : c0 = '-' ∨ ∃ k, k < 10 ∧ c0 = hexDigitChar k := by
    unfold intChars at hd
    split at hd
    · cases hd2 : natDigits (-m).toNat with
      | nil => exact absurd hd2 (natDigits_ne_nil _)
      | cons d ds =>
        rw [hd2] at hd
        cases hd
        exact Or.inl rfl
    · exact Or.inr (natDigits_spec _ c0 (by rw [hd]; simp))
  rcases hmem with he | ⟨k, hk, he⟩
  · subst he
    exact ⟨by decide, by decide, by decide, by decide, by decide, by decide, rfl⟩
  · subst he
    obtain ⟨hdig, ht, -, hws⟩ := hexDigitChar_lt10 k hk
    have hne : ∀ x : Char, ¬ (48 ≤ x.toNat ∧ x.toNat ≤ 57) → hexDigitChar k ≠ x :=
      fun x hx he2 => hx (by rw [← he2, ht]; omega)
    exact ⟨hne '{' (by decide), hne '[' (by decide), hne '"' (by decide),
      hne 't' (by decide), hne 'f' (by decide), hne 'n' (by decide), hws⟩

theorem intChars_ne_nil (n : Int) : intChars n ≠ [] := by
  rw [intChars]
  split
  · simp
  · exact natDigits_ne_nil _

theorem parseNum_intChars (n : Int) (rest : List Char)
    (hr : ∀ c cs, rest = c :: cs → c.isDigit = false ∧ (c == '.') = false ∧
      (c == 'e') = false ∧ (c == 'E') = false) :
    parseNum (intChars n ++ rest) = some (n, rest) := by
  by_cases hneg : n < 0
  · have h0 : intChars n = '-' :: natDigits (-n).toNat := by
      rw [intChars, if_pos hneg]
    rw [h0, List.cons_append, parseNum, if_pos rfl,
      parseNumNat_natDigits _ rest hr, Option.map_some']
    have : (((-n).toNat : Int)) = -n := Int.toNat_of_nonneg (by omega)
    simp [this]
  · have h0 : intChars n = natDigits n.toNat := by
      rw [intChars, if_neg hneg]
    rw [h0]
    cases hd : natDigits n.toNat with
    | nil => exact absurd hd (natDigits_ne_nil _)
    | cons c0 cs0 =>
      have hc0ne : c0 ≠ '-' := by
        obtain ⟨k, hk, he⟩ := natDigits_spec _ c0 (by rw [hd]; simp)
        obtain ⟨-, ht, -, -⟩ := hexDigitChar_lt10 k hk
        subst he
        intro he2
        rw [he2] at ht
        have h45 : ('-').toNat = 45 := rfl
        rw [h45] at ht
        omega
      rw [List.cons_append, parseNum, if_neg hc0ne,
        ← List.cons_append, ← hd, parseNumNat_natDigits _ rest hr,
        Option.map_some']
      simp [Int.toNat_of_nonneg (by omega : (0 : Int) ≤ n)]

theorem skipWs_cons (c : Char) (r : List Char) (hc : isJsonWs c = false) :
    skipWs (c :: r) = c :: r := by
  simp [skipWs, List.dropWhile_cons, hc]

theorem parseStrBody_safe (s : List Char) (hs : ∀ c ∈ s, safeChar c = true) :
    ∀ (fuel : Nat) (rest : List Char), s.length < fuel →
      parseStrBody fuel (s ++ '"' :: rest) = some (s, rest) := by
  induction s with
  | nil =>
    intro fuel rest hf
    cases fuel with
    | zero => exact absurd hf (Nat.not_lt_zero _)
    | succ f => simp [parseStrBody]
  | cons c cs ih =>
    intro fuel rest hf
    cases fuel with
    | zero => exact absurd hf (Nat.not_lt_zero _)
    | succ f =>
      have hcsafe := hs c (by simp)
      have h1 : (c == '"') = false :=
        beq_eq_false_iff_ne.mpr (safeChar_ne c '"' hcsafe (by decide))
      have h2 : (c == '\\') = false :=
        beq_eq_false_iff_ne.mpr (safeChar_ne c '\\' hcsafe (by decide))
      have h3 : ¬ (c.toNat < 0x20) := by
        have := safeChar_bound c hcsafe
        omega
      rw [List.cons_append]
      simp only [parseStrBody]
      simp only [h1, if_neg Bool.false_ne_true, h2, if_neg h3]
      rw [ih (fun d hd => hs d (by simp [hd])) f rest (by
        simp only [List.length_cons] at hf
        omega)]
      rfl

theorem parseValue_scalar (v : Json) (hv : safeVal v = true) (rest : List Char)
    (hr : ∀ c cs, rest = c :: cs → c.isDigit = false ∧ (c == '.') = false ∧
      (c == 'e') = false ∧ (c == 'E') = false) :
    ∀ fuel, parseValue (fuel + 2) (stringifyVal v ++ rest) = some (v, rest) := by
  intro fuel
  cases v with
  | null => rfl
  | bool b => cases b <;> rfl
  | num n =>
    cases hd : intChars n with
    | nil => exact absurd hd (intChars_ne_nil n)
    | cons c0 r0 =>
      obtain ⟨h1, h2, h3, h4, h5, h6, hws⟩ := intChars_head_facts n c0 r0 hd
      have hshape : stringifyVal (Json.num n) ++ rest = c0 :: (r0 ++ rest) := by
        rw [stringifyVal, hd, List.cons_append]
      rw [hshape]
      simp only [parseValue]
      rw [skipWs_cons c0 _ hws]
      simp only [parseValueHead]
      rw [if_neg h1, if_neg h2, if_neg h3, if_neg h4, if_neg h5, if_neg h6,
        ← List.cons_append, ← hd, parseNum_intChars n rest hr]
      rfl
  | str s =>
    have hsafe : ∀ c ∈ s.data, safeChar c = true := by
      simpa [safeVal, List.all_eq_true] using hv
    have hesc : escapeStr s.data = s.data := escapeStr_safe _ hsafe
    have hshape : stringifyVal (Json.str s) ++ rest =
        '"' :: (s.data ++ '"' :: rest) := by
      rw [stringifyVal, hesc]
      simp
    rw [hshape]
    simp only [parseValue]
    rw [skipWs_cons '"' _ (by decide)]
    simp only [parseValueHead]
    rw [if_neg (by decide : ¬ ('"' = '{')), if_neg (by decide : ¬ ('"' = '[')),
      if_pos trivial,
      parseStrBody_safe s.data hsafe ((s.data ++ '"' :: rest).length + 1) rest
        (by simp only [List.length_append, List.length_cons]; omega)]
    rfl
  | arr es => simp [safeVal] at hv
  | obj ms => simp [safeVal] at hv

/-! Serialized safe values use only interior-safe characters -/

theorem natDigits_interior (n : Nat) :
    ∀ c ∈ natDigits n, interiorOk c = true := by
  intro c hc
  obtain ⟨k, hk, he⟩ := natDigits_spec n c hc
  subst he
  exact (hexDigitChar_lt10 k hk).2.2.1

theorem intChars_interior (n : Int) :
    ∀ c ∈ intChars n, interiorOk c = true := by
  intro c hc
  rw [intChars] at hc
  split at hc
  · rcases List.mem_cons.mp hc with he | hc2
    · subst he
      decide
    · exact natDigits_interior _ c hc2
  · exact natDigits_interior _ c hc

theorem stringifyVal_interior (v : Json) (hv : safeVal v = true) :
    ∀ c ∈ stringifyVal v, interiorOk c = true := by
  cases v with
  | null =>
    intro c hc
    fin_cases hc <;> decide
  | bool b =>
    cases b <;> (intro c hc; fin_cases hc <;> decide)
  | num n =>
    intro c hc
    exact intChars_interior n c (by simpa [stringifyVal] using hc)
  | str s =>
    have hsafe : ∀ c ∈ s.data, safeChar c = true := by
      simpa [safeVal, List.all_eq_true] using hv
    intro c hc
    rw [stringifyVal, escapeStr_safe _ hsafe] at hc
    rcases List.mem_cons.mp hc with he | hc2
    · subst he
      decide
    · rcases List.mem_append.mp hc2 with hc3 | hc3
      · exact safeChar_interior c (hsafe c hc3)
      · rcases List.mem_singleton.mp hc3 with he
        subst he
        decide
  | arr es => simp [safeVal] at hv
  | obj ms => simp [safeVal] at hv

theorem stringifyMembers_interior (ms : List (String × Json))
    (hm : safeMembers ms = true) :
    ∀ c ∈ stringifyMembers ms, interiorOk c = true := by
  induction ms with
  | nil => simp [stringifyMembers]
  | cons kv tl ih =>
    obtain ⟨k, v⟩ := kv
    simp only [safeMembers, List.all_cons, Bool.and_eq_true] at hm
    obtain ⟨⟨hk0, hv0⟩, htl0⟩ := hm
    have hk : ∀ c ∈ k.data, safeChar c = true := by
      rw [List.all_eq_true] at hk0
      exact fun c hc => hk0 c hc
    have hmem : ∀ c ∈ ('"' :: (escapeStr k.data ++ '"' :: ':' :: stringifyVal v)),
        interiorOk c = true := by
      rw [escapeStr_safe _ hk]
      intro c hc
      rcases List.mem_cons.mp hc with he | hc2
      · subst he
        decide
      · rcases List.mem_append.mp hc2 with hc3 | hc3
        · exact safeChar_interior c (hk c hc3)
        · rcases List.mem_cons.mp hc3 with he | hc4
          · subst he
            decide
          · rcases List.mem_cons.mp hc4 with he | hc5
            · subst he
              decide
            · exact stringifyVal_interior v hv0 c hc5
    cases tl with
    | nil =>
      intro c hc
      rw [stringifyMembers] at hc
      exact hmem c hc
    | cons kv2 tl2 =>
      intro c hc
      rw [stringifyMembers] at hc
      case x_1 => exact List.cons_ne_nil _ _
      rcases List.mem_append.mp hc with hc2 | hc2
      · exact hmem c hc2
      · rcases List.mem_cons.mp hc2 with he | hc3
        · subst he
          decide
        · exact ih htl0 c hc3

theorem stringifyMembers_length (ms : List (String × Json)) :
    ms.length ≤ (stringifyMembers ms).length := by
  induction ms with
  | nil => simp [stringifyMembers]
  | cons kv tl ih =>
    obtain ⟨k, v⟩ := kv
    cases tl with
    | nil => simp [stringifyMembers]
    | cons kv2 tl2 =>
      rw [stringifyMembers]
      case x_1 => exact List.cons_ne_nil _ _
      have h2 := ih
      simp only [List.length_append, List.length_cons] at h2 ⊢
      omega

theorem stringifyMembers_head (ms : List (String × Json)) (hne : ms ≠ []) :
    ∃ t, stringifyMembers ms = '"' :: t := by
  cases ms with
  | nil => exact absurd rfl hne
  | cons kv tl =>
    obtain ⟨k, v⟩ := kv
    cases tl with
    | nil => exact ⟨_, rfl⟩
    | cons kv2 tl2 => exact ⟨_, rfl⟩

/-! The member-list round-trip -/

theorem parseObjMembers_safe (ms : List (String × Json)) :
    ∀ (rest : List Char) (fuel : Nat),
      safeMembers ms = true → ms ≠ [] → 6 * ms.length ≤ fuel →
      parseObjMembers (fuel + 1) (stringifyMembers ms ++ '}' :: rest) =
        some (ms, rest) := by
  induction ms with
  | nil =>
    intro rest fuel _ hne _
    exact absurd rfl hne
  | cons kv tl ih =>
    obtain ⟨k, v⟩ := kv
    intro rest fuel hsafe _ hfuel
    simp only [List.length_cons] at hfuel
    simp only [safeMembers, List.all_cons, Bool.and_eq_true] at hsafe
    obtain ⟨⟨hk0, hv0⟩, htl0⟩ := hsafe
    have hk : ∀ c ∈ k.data, safeChar c = true := by
      rw [List.all_eq_true] at hk0
      exact fun c hc => hk0 c hc
    have hesc : escapeStr k.data = k.data := escapeStr_safe _ hk
    obtain ⟨f1, rfl⟩ : ∃ x, fuel = x + 1 := ⟨fuel - 1, by omega⟩
    obtain ⟨f2, rfl⟩ : ∃ x, f1 = x + 1 := ⟨f1 - 1, by omega⟩
    obtain ⟨f3, rfl⟩ : ∃ x, f2 = x + 2 := ⟨f2 - 2, by omega⟩
    cases tl with
    | nil =>
      have hshape : stringifyMembers [(k, v)] ++ '}' :: rest =
          '"' :: (k.data ++ '"' :: (':' :: (stringifyVal v ++ '}' :: rest))) := by
        rw [stringifyMembers, hesc]
        simp
      rw [hshape]
      simp only [parseObjMembers]
      rw [skipWs_cons '"' _ (by decide)]
      simp only [parseMembersHead]
      rw [if_pos (by decide),
        parseStrBody_safe k.data hk _ (':' :: (stringifyVal v ++ '}' :: rest))
          (by simp only [List.length_append, List.length_cons]; omega)]
      simp only [Option.some_bind]
      rw [skipWs_cons ':' _ (by decide)]
      simp only [parseMemberColon]
      rw [if_pos (by decide),
        parseValue_scalar v hv0 ('}' :: rest)
          (by intro c cs hc; cases hc; exact ⟨by decide, by decide, by decide,
            by decide⟩) f3]
      simp only [Option.some_bind]
      rw [skipWs_cons '}' _ (by decide)]
      simp only [parseMemberSep]
      rw [if_neg (by decide : ¬ ('}' = ',')), if_pos trivial]
    | cons kv2 tl2 =>
      have hshape : stringifyMembers ((k, v) :: kv2 :: tl2) ++ '}' :: rest =
          '"' :: (k.data ++ '"' :: (':' :: (stringifyVal v ++
            ',' :: (stringifyMembers (kv2 :: tl2) ++ '}' :: rest)))) := by
        rw [stringifyMembers, hesc]
        case x_1 => exact List.cons_ne_nil _ _
        simp
      rw [hshape]
      simp only [parseObjMembers]
      rw [skipWs_cons '"' _ (by decide)]
      simp only [parseMembersHead]
      rw [if_pos (by decide),
        parseStrBody_safe k.data hk _
          (':' :: (stringifyVal v ++
            ',' :: (stringifyMembers (kv2 :: tl2) ++ '}' :: rest)))
          (by simp only [List.length_append, List.length_cons]; omega)]
      simp only [Option.some_bind]
      rw [skipWs_cons ':' _ (by decide)]
      simp only [parseMemberColon]
      rw [if_pos (by decide),
        parseValue_scalar v hv0
          (',' :: (stringifyMembers (kv2 :: tl2) ++ '}' :: rest))
          (by intro c cs hc; cases hc; exact ⟨by decide, by decide, by decide,
            by decide⟩) f3]
      simp only [Option.some_bind]
      rw [skipWs_cons ',' _ (by decide)]
      simp only [parseMemberSep]
      rw [if_pos (by decide)]
      rw [ih rest f3 htl0 (List.cons_ne_nil _ _) (by
        simp only [List.length_cons] at hfuel ⊢
        omega)]
      rfl

theorem jsonParse_stringify_obj (ms : List (String × Json))
    (hm : safeMembers ms = true) :
    jsonParse (stringifyVal (Json.obj ms)) = some (Json.obj ms) := by
  cases ms with
  | nil => rfl
  | cons kv tl =>
    have hne : kv :: tl ≠ [] := List.cons_ne_nil _ _
    have hlen : (kv :: tl).length ≤ (stringifyMembers (kv :: tl)).length :=
      stringifyMembers_length _
    obtain ⟨t, ht⟩ := stringifyMembers_head (kv :: tl) hne
    have hshape : stringifyVal (Json.obj (kv :: tl)) =
        '{' :: (stringifyMembers (kv :: tl) ++ ['}']) := rfl
    unfold jsonParse
    rw [hshape]
    obtain ⟨f, hf, hfe⟩ :
        ∃ f, 8 * ('{' :: (stringifyMembers (kv :: tl) ++ ['}'])).length + 8 =
          f + 4 ∧ 6 * (kv :: tl).length ≤ f := by
      refine ⟨8 * ('{' :: (stringifyMembers (kv :: tl) ++ ['}'])).length + 4,
        by omega, ?_⟩
      have h2 := hlen
      simp only [List.length_cons, List.length_append, List.length_singleton,
        List.length_nil] at h2 ⊢
      omega
    rw [hf]
    simp only [parseValue]
    rw [skipWs_cons '{' _ (by decide)]
    simp only [parseValueHead]
    rw [if_pos (by decide)]
    have hskip : skipWs (stringifyMembers (kv :: tl) ++ ['}']) =
        '"' :: (t ++ ['}']) := by
      rw [ht, List.cons_append, skipWs_cons '"' _ (by decide)]
    rw [hskip]
    simp only [parseValueObjHead]
    rw [if_neg (by decide : ¬ ('"' = '}')),
      parseObjMembers_safe (kv :: tl) [] f hm hne hfe]
    rfl


/-! Empty-input scans -/

theorem scanQual_nil (fuel pos : Nat) : scanQual fuel [] pos = [] := by
  cases fuel <;> rfl

theorem scanUnqual_nil (fuel pos tIdx : Nat) : scanUnqual fuel [] pos tIdx = [] := by
  cases fuel <;> rfl

theorem scanQual_single (fuel : Nat) (l : List Char) (pos : Nat) (m : QualCap)
    (hm : matchQualAt l = some m) (hlen : l.length ≤ m.len) :
    scanQual (fuel + 1) l pos = [(pos, m)] := by
  simp only [scanQual, hm]
  rw [List.drop_eq_nil_of_le hlen, scanQual_nil]

/-! A regex-1 or regex-2 match forces a `/` at offset 5 -/

theorem kw_fifth (l r : List Char) (hd : dropLit kwChars l = some r) :
    l[5]? = some '/' := by
  rw [dropLit_inv kwChars l r hd]
  rfl

theorem matchQualAt_none_fifth (l : List Char) (h : ¬ l[5]? = some '/') :
    matchQualAt l = none := by
  cases hd : dropLit kwChars l with
  | none => simp only [matchQualAt, hd, Option.none_bind]
  | some r => exact absurd (kw_fifth l r hd) h

theorem matchUnqualAt_none_fifth (l : List Char) (h : ¬ l[5]? = some '/') :
    matchUnqualAt l = none := by
  cases hd : dropLit kwChars l with
  | none => simp only [matchUnqualAt, hd, Option.none_bind]
  | some r => exact absurd (kw_fifth l r hd) h

theorem no_slash_from6 (l : List Char) (h : '/' ∉ l.drop 6) :
    ∀ j, 6 ≤ j → ¬ l[j]? = some '/' := by
  intro j hj hc
  apply h
  have h2 : l[6 + (j - 6)]? = some '/' := by
    rwa [show 6 + (j - 6) = j from by omega]
  rw [← List.getElem?_drop] at h2
  exact List.getElem?_mem h2

/-! Unpacking the statement-support predicates -/

theorem interiorOk_spec (c : Char) (h : interiorOk c = true) :
    ((c == '}') = false ∧ isJsDot c = true) ∧ c ≠ '/' := by
  rw [interiorOk, Bool.and_eq_true, Bool.and_eq_true] at h
  obtain ⟨⟨h1, h2⟩, h3⟩ := h
  refine ⟨⟨by simpa using h1, h2⟩, ?_⟩
  intro he
  rw [he] at h3
  simp at h3

theorem wordToken_spec (s : String) (h : wordToken s = true) :
    s.data ≠ [] ∧ ∀ c ∈ s.data, isWordChar c = true := by
  rw [wordToken, Bool.and_eq_true] at h
  obtain ⟨h1, h2⟩ := h
  refine ⟨?_, ?_⟩
  · intro he
    rw [he] at h1
    simp at h1
  · rw [List.all_eq_true] at h2
    exact fun c hc => h2 c hc

/-! Scans on text without any match -/

theorem scanQual_all_none (fuel : Nat) :
    ∀ l pos, (∀ k, matchQualAt (l.drop k) = none) → scanQual fuel l pos = [] := by
  induction fuel with
  | zero => intro l pos _; rfl
  | succ f ih =>
    intro l pos h
    have h0 := h 0
    rw [List.drop_zero] at h0
    cases l with
    | nil => rfl
    | cons c tl =>
      simp only [scanQual, h0]
      exact ih tl (pos + 1) (fun k => by
        have h2 := h (k + 1)
        rwa [List.drop_succ_cons] at h2)

theorem scanUnqual_all_none (fuel : Nat) :
    ∀ l pos tIdx, (∀ k, matchUnqualAt (l.drop k) = none) →
      scanUnqual fuel l pos tIdx = [] := by
  induction fuel with
  | zero => intro l pos tIdx _; rfl
  | succ f ih =>
    intro l pos tIdx h
    have h0 := h 0
    rw [List.drop_zero] at h0
    cases l with
    | nil => rfl
    | cons c tl =>
      simp only [scanUnqual, h0]
      exact ih tl (pos + 1) tIdx (fun k => by
        have h2 := h (k + 1)
        rwa [List.drop_succ_cons] at h2)

theorem scanQualHit_all_none (fuel : Nat) :
    ∀ l pos, (∀ k, matchQualAt (l.drop k) = none) → scanQualHit fuel l pos = none := by
  induction fuel with
  | zero => intro l pos _; rfl
  | succ f ih =>
    intro l pos h
    have h0 := h 0
    rw [List.drop_zero] at h0
    cases l with
    | nil => rfl
    | cons c tl =>
      simp only [scanQualHit, h0]
      exact ih tl (pos + 1) (fun k => by
        have h2 := h (k + 1)
        rwa [List.drop_succ_cons] at h2)


/-! Exact matcher runs on formatted directives -/

theorem matchQualAt_build (s t b rest : List Char)
    (hs : s ≠ []) (hsw : ∀ c ∈ s, isWordChar c = true)
    (ht : t ≠ []) (htw : ∀ c ∈ t, isWordChar c = true)
    (hb : ∀ c ∈ b, interiorOk c = true) :
    matchQualAt (kwChars ++ ' ' :: (s ++ ' ' :: (t ++ ' ' ::
        ('{' :: (b ++ '}' :: rest))))) =
      some { server := s, tool := t, args := '{' :: (b ++ ['}']),
             len := s.length + t.length + b.length + 15 } := by
  obtain ⟨s0, s2, rfl⟩ : ∃ x xs, s = x :: xs := by
    cases s with
    | nil => exact absurd rfl hs
    | cons a as => exact ⟨a, as, rfl⟩
  obtain ⟨t0, t2, rfl⟩ : ∃ x xs, t = x :: xs := by
    cases t with
    | nil => exact absurd rfl ht
    | cons a as => exact ⟨a, as, rfl⟩
  have hs0 : isWordChar s0 = true := hsw s0 (by simp)
  have ht0 : isWordChar t0 = true := htw t0 (by simp)
  have hsp1 : takeWhile1 isJsSpace (' ' :: ((s0 :: s2) ++ ' ' :: ((t0 :: t2) ++
      ' ' :: ('{' :: (b ++ '}' :: rest))))) =
      some ([' '], (s0 :: s2) ++ ' ' :: ((t0 :: t2) ++ ' ' ::
        ('{' :: (b ++ '}' :: rest)))) := by
    have h := takeWhile1_exact isJsSpace [' ']
      ((s0 :: s2) ++ ' ' :: ((t0 :: t2) ++ ' ' :: ('{' :: (b ++ '}' :: rest))))
      (by simp)
      (by intro c hc; rw [List.mem_singleton] at hc; subst hc; decide)
      (by
        intro c cs hcc
        rw [List.cons_append] at hcc
        cases hcc
        exact word_not_space s0 hs0)
    simpa using h
  have hw1 : takeWhile1 isWordChar ((s0 :: s2) ++ ' ' :: ((t0 :: t2) ++ ' ' ::
      ('{' :: (b ++ '}' :: rest)))) =
      some (s0 :: s2, ' ' :: ((t0 :: t2) ++ ' ' :: ('{' :: (b ++ '}' :: rest)))) :=
    takeWhile1_exact isWordChar (s0 :: s2) _ (List.cons_ne_nil _ _) hsw
      (by intro c cs hcc; cases hcc; decide)
  have hsp2 : takeWhile1 isJsSpace (' ' :: ((t0 :: t2) ++ ' ' ::
      ('{' :: (b ++ '}' :: rest)))) =
      some ([' '], (t0 :: t2) ++ ' ' :: ('{' :: (b ++ '}' :: rest))) := by
    have h := takeWhile1_exact isJsSpace [' ']
      ((t0 :: t2) ++ ' ' :: ('{' :: (b ++ '}' :: rest)))
      (by simp)
      (by intro c hc; rw [List.mem_singleton] at hc; subst hc; decide)
      (by
        intro c cs hcc
        rw [List.cons_append] at hcc
        cases hcc
        exact word_not_space t0 ht0)
    simpa using h
  have hw2 : takeWhile1 isWordChar ((t0 :: t2) ++ ' ' :: ('{' :: (b ++ '}' :: rest))) =
      some (t0 :: t2, ' ' :: ('{' :: (b ++ '}' :: rest))) :=
    takeWhile1_exact isWordChar (t0 :: t2) _ (List.cons_ne_nil _ _) htw
      (by intro c cs hcc; cases hcc; decide)
  have hsp3 : takeWhile1 isJsSpace (' ' :: ('{' :: (b ++ '}' :: rest))) =
      some ([' '], '{' :: (b ++ '}' :: rest)) := by
    have h := takeWhile1_exact isJsSpace [' '] ('{' :: (b ++ '}' :: rest))
      (by simp)
      (by intro c hc; rw [List.mem_singleton] at hc; subst hc; decide)
      (by intro c cs hcc; cases hcc; decide)
    simpa using h
  have hlzy : lazyBody (b ++ '}' :: rest) = some (b, rest) :=
    lazyBody_exact b rest (fun c hc => (interiorOk_spec c (hb c hc)).1)
  simp only [matchQualAt, dropLit_self, hsp1, hw1, hsp2, hw2, hsp3,
    expectBrace_cons, hlzy, Option.some_bind, Option.map_some']
  simp only [Option.some.injEq, QualCap.mk.injEq]
  refine ⟨trivial, trivial, trivial, ?_⟩
  simp only [kwChars, List.length_cons, List.length_nil]
  omega

theorem matchUnqualAt_build (t b rest : List Char)
    (ht : t ≠ []) (htw : ∀ c ∈ t, isWordChar c = true)
    (hb : ∀ c ∈ b, interiorOk c = true) :
    matchUnqualAt (kwChars ++ ' ' :: (t ++ ' ' :: ('{' :: (b ++ '}' :: rest)))) =
      some { tool := t, args := '{' :: (b ++ ['}']),
             len := t.length + b.length + 14 } := by
  obtain ⟨t0, t2, rfl⟩ : ∃ x xs, t = x :: xs := by
    cases t with
    | nil => exact absurd rfl ht
    | cons a as => exact ⟨a, as, rfl⟩
  have ht0 : isWordChar t0 = true := htw t0 (by simp)
  have hsp1 : takeWhile1 isJsSpace (' ' :: ((t0 :: t2) ++ ' ' ::
      ('{' :: (b ++ '}' :: rest)))) =
      some ([' '], (t0 :: t2) ++ ' ' :: ('{' :: (b ++ '}' :: rest))) := by
    have h := takeWhile1_exact isJsSpace [' ']
      ((t0 :: t2) ++ ' ' :: ('{' :: (b ++ '}' :: rest)))
      (by simp)
      (by intro c hc; rw [List.mem_singleton] at hc; subst hc; decide)
      (by
        intro c cs hcc
        rw [List.cons_append] at hcc
        cases hcc
        exact word_not_space t0 ht0)
    simpa using h
  have hw1 : takeWhile1 isWordChar ((t0 :: t2) ++ ' ' :: ('{' :: (b ++ '}' :: rest))) =
      some (t0 :: t2, ' ' :: ('{' :: (b ++ '}' :: rest))) :=
    takeWhile1_exact isWordChar (t0 :: t2) _ (List.cons_ne_nil _ _) htw
      (by intro c cs hcc; cases hcc; decide)
  have hsp2 : takeWhile1 isJsSpace (' ' :: ('{' :: (b ++ '}' :: rest))) =
      some ([' '], '{' :: (b ++ '}' :: rest)) := by
    have h := takeWhile1_exact isJsSpace [' '] ('{' :: (b ++ '}' :: rest))
      (by simp)
      (by intro c hc; rw [List.mem_singleton] at hc; subst hc; decide)
      (by intro c cs hcc; cases hcc; decide)
    simpa using h
  have hlzy : lazyBody (b ++ '}' :: rest) = some (b, rest) :=
    lazyBody_exact b rest (fun c hc => (interiorOk_spec c (hb c hc)).1)
  simp only [matchUnqualAt, dropLit_self, hsp1, hw1, hsp2,
    expectBrace_cons, hlzy, Option.some_bind, Option.map_some']
  simp only [Option.some.injEq, UnqualCap.mk.injEq]
  refine ⟨trivial, trivial, ?_⟩
  simp only [kwChars, List.length_cons, List.length_nil]
  omega

/-! Structural match failures at a directive of the other form -/

theorem matchUnqualAt_qual_none (s : List Char) (c0 : Char) (r : List Char)
    (hs : s ≠ []) (hsw : ∀ c ∈ s, isWordChar c = true)
    (hc0 : isWordChar c0 = true) :
    matchUnqualAt (kwChars ++ ' ' :: (s ++ ' ' :: (c0 :: r))) = none := by
  obtain ⟨s0, s2, rfl⟩ : ∃ x xs, s = x :: xs := by
    cases s with
    | nil => exact absurd rfl hs
    | cons a as => exact ⟨a, as, rfl⟩
  have hs0 : isWordChar s0 = true := hsw s0 (by simp)
  have hsp1 : takeWhile1 isJsSpace (' ' :: ((s0 :: s2) ++ ' ' :: (c0 :: r))) =
      some ([' '], (s0 :: s2) ++ ' ' :: (c0 :: r)) := by
    have h := takeWhile1_exact isJsSpace [' '] ((s0 :: s2) ++ ' ' :: (c0 :: r))
      (by simp)
      (by intro c hc; rw [List.mem_singleton] at hc; subst hc; decide)
      (by
        intro c cs hcc
        rw [List.cons_append] at hcc
        cases hcc
        exact word_not_space s0 hs0)
    simpa using h
  have hw1 : takeWhile1 isWordChar ((s0 :: s2) ++ ' ' :: (c0 :: r)) =
      some (s0 :: s2, ' ' :: (c0 :: r)) :=
    takeWhile1_exact isWordChar (s0 :: s2) _ (List.cons_ne_nil _ _) hsw
      (by intro c cs hcc; cases hcc; decide)
  have hsp2 : takeWhile1 isJsSpace (' ' :: (c0 :: r)) = some ([' '], c0 :: r) := by
    have h := takeWhile1_exact isJsSpace [' '] (c0 :: r)
      (by simp)
      (by intro c hc; rw [List.mem_singleton] at hc; subst hc; decide)
      (by
        intro c cs hcc
        cases hcc
        exact word_not_space c0 hc0)
    simpa using h
  have hbr : expectBrace (c0 :: r) = none := by
    simp only [expectBrace]
    rw [if_neg (wordChar_ne c0 '{' hc0 (by decide))]
  simp only [matchUnqualAt, dropLit_self, hsp1, hw1, hsp2, hbr,
    Option.some_bind, Option.none_bind]

theorem matchQualAt_unqual_none (t X : List Char)
    (ht : t ≠ []) (htw : ∀ c ∈ t, isWordChar c = true) :
    matchQualAt (kwChars ++ ' ' :: (t ++ ' ' :: ('{' :: X))) = none := by
  obtain ⟨t0, t2, rfl⟩ : ∃ x xs, t = x :: xs := by
    cases t with
    | nil => exact absurd rfl ht
    | cons a as => exact ⟨a, as, rfl⟩
  have ht0 : isWordChar t0 = true := htw t0 (by simp)
  have hsp1 : takeWhile1 isJsSpace (' ' :: ((t0 :: t2) ++ ' ' :: ('{' :: X))) =
      some ([' '], (t0 :: t2) ++ ' ' :: ('{' :: X)) := by
    have h := takeWhile1_exact isJsSpace [' '] ((t0 :: t2) ++ ' ' :: ('{' :: X))
      (by simp)
      (by intro c hc; rw [List.mem_singleton] at hc; subst hc; decide)
      (by
        intro c cs hcc
        rw [List.cons_append] at hcc
        cases hcc
        exact word_not_space t0 ht0)
    simpa using h
  have hw1 : takeWhile1 isWordChar ((t0 :: t2) ++ ' ' :: ('{' :: X)) =
      some (t0 :: t2, ' ' :: ('{' :: X)) :=
    takeWhile1_exact isWordChar (t0 :: t2) _ (List.cons_ne_nil _ _) htw
      (by intro c cs hcc; cases hcc; decide)
  have hsp2 : takeWhile1 isJsSpace (' ' :: ('{' :: X)) = some ([' '], '{' :: X) := by
    have h := takeWhile1_exact isJsSpace [' '] ('{' :: X)
      (by simp)
      (by intro c hc; rw [List.mem_singleton] at hc; subst hc; decide)
      (by intro c cs hcc; cases hcc; decide)
    simpa using h
  have hw2 : takeWhile1 isWordChar ('{' :: X) = none := by
    simp only [takeWhile1]
    rw [if_neg (by decide)]
  simp only [matchQualAt, dropLit_self, hsp1, hw1, hsp2, hw2,
    Option.some_bind, Option.none_bind]


/-! Past offset 5, a formatted directive contains no `/` -/

theorem qual_body_no_slash (s t b : List Char)
    (hsw : ∀ c ∈ s, isWordChar c = true) (htw : ∀ c ∈ t, isWordChar c = true)
    (hb : ∀ c ∈ b, interiorOk c = true) :
    '/' ∉ (kwChars ++ ' ' :: (s ++ ' ' :: (t ++ ' ' ::
      ('{' :: (b ++ '}' :: []))))).drop 6 := by
  have hd : (kwChars ++ ' ' :: (s ++ ' ' :: (t ++ ' ' ::
      ('{' :: (b ++ '}' :: []))))).drop 6 =
      'c' :: 'a' :: 'l' :: 'l' :: ' ' :: (s ++ ' ' :: (t ++ ' ' ::
        ('{' :: (b ++ '}' :: [])))) := rfl
  rw [hd]
  intro hmem
  simp only [List.mem_cons, List.mem_append] at hmem
  rcases hmem with hc1 | hc2 | hc3 | hc4 | hc5 | hin1 | hc6 | hin2 | hc7 | hc8 | hin3 | hlast
  · exact absurd hc1 (by decide)
  · exact absurd hc2 (by decide)
  · exact absurd hc3 (by decide)
  · exact absurd hc4 (by decide)
  · exact absurd hc5 (by decide)
  · exact word_not_slash '/' (hsw '/' hin1) rfl
  · exact absurd hc6 (by decide)
  · exact word_not_slash '/' (htw '/' hin2) rfl
  · exact absurd hc7 (by decide)
  · exact absurd hc8 (by decide)
  · exact (interiorOk_spec '/' (hb '/' hin3)).2 rfl
  · simp at hlast

theorem unqual_body_no_slash (t b : List Char)
    (htw : ∀ c ∈ t, isWordChar c = true)
    (hb : ∀ c ∈ b, interiorOk c = true) :
    '/' ∉ (kwChars ++ ' ' :: (t ++ ' ' :: ('{' :: (b ++ '}' :: [])))).drop 6 := by
  have hd : (kwChars ++ ' ' :: (t ++ ' ' :: ('{' :: (b ++ '}' :: [])))).drop 6 =
      'c' :: 'a' :: 'l' :: 'l' :: ' ' :: (t ++ ' ' ::
        ('{' :: (b ++ '}' :: []))) := rfl
  rw [hd]
  intro hmem
  simp only [List.mem_cons, List.mem_append] at hmem
  rcases hmem with hd1 | hd2 | hd3 | hd4 | hd5 | hmt | hd6 | hd7 | hmb | hnil
  · exact absurd hd1 (by decide)
  · exact absurd hd2 (by decide)
  · exact absurd hd3 (by decide)
  · exact absurd hd4 (by decide)
  · exact absurd hd5 (by decide)
  · exact word_not_slash '/' (htw '/' hmt) rfl
  · exact absurd hd6 (by decide)
  · exact absurd hd7 (by decide)
  · exact (interiorOk_spec '/' (hb '/' hmb)).2 rfl
  · simp at hnil

/-! No regex-2 match anywhere in a qualified directive, and no regex-1 match
anywhere in an unqualified one -/

theorem qual_text_unqual_none (s t b : List Char)
    (hs : s ≠ []) (hsw : ∀ c ∈ s, isWordChar c = true)
    (ht : t ≠ []) (htw : ∀ c ∈ t, isWordChar c = true)
    (hb : ∀ c ∈ b, interiorOk c = true) :
    ∀ k, matchUnqualAt ((kwChars ++ ' ' :: (s ++ ' ' :: (t ++ ' ' ::
      ('{' :: (b ++ '}' :: []))))).drop k) = none := by
  intro k
  cases k with
  | zero =>
    rw [List.drop_zero]
    obtain ⟨t0, t2, rfl⟩ : ∃ x xs, t = x :: xs := by
      cases t with
      | nil => exact absurd rfl ht
      | cons a as => exact ⟨a, as, rfl⟩
    rw [List.cons_append]
    exact matchUnqualAt_qual_none s t0 (t2 ++ ' ' :: ('{' :: (b ++ '}' :: [])))
      hs hsw (htw t0 (by simp))
  | succ k =>
    apply matchUnqualAt_none_fifth
    rw [List.getElem?_drop]
    exact no_slash_from6 _ (qual_body_no_slash s t b hsw htw hb) (k + 1 + 5)
      (by omega)

theorem unqual_text_qual_none (t b : List Char)
    (ht : t ≠ []) (htw : ∀ c ∈ t, isWordChar c = true)
    (hb : ∀ c ∈ b, interiorOk c = true) :
    ∀ k, matchQualAt ((kwChars ++ ' ' :: (t ++ ' ' ::
      ('{' :: (b ++ '}' :: [])))).drop k) = none := by
  intro k
  cases k with
  | zero =>
    rw [List.drop_zero]
    exact matchQualAt_unqual_none t (b ++ '}' :: []) ht htw
  | succ k =>
    apply matchQualAt_none_fifth
    rw [List.getElem?_drop]
    exact no_slash_from6 _ (unqual_body_no_slash t b htw hb) (k + 1 + 5)
      (by omega)


/-! Parsing the serialized arguments back out of a captured match -/

theorem mkQualCall_format (server tool : String) (ms : List (String × Json))
    (hm : safeMembers ms = true) (len : Nat) :
    mkQualCall ⟨server.data, tool.data,
        '{' :: (stringifyMembers ms ++ ['}']), len⟩ =
      some { tool := server ++ "." ++ tool, args := Json.obj ms } := by
  simp only [mkQualCall]
  rw [show ('{' :: (stringifyMembers ms ++ ['}'])) = stringifyVal (Json.obj ms)
      from rfl,
    jsonParse_stringify_obj ms hm]
  rfl

theorem mkUnqualCall_format (tool : String) (ms : List (String × Json))
    (hm : safeMembers ms = true) (len : Nat) :
    mkUnqualCall ⟨tool.data,
        '{' :: (stringifyMembers ms ++ ['}']), len⟩ =
      some { tool := tool, args := Json.obj ms } := by
  simp only [mkUnqualCall]
  rw [show ('{' :: (stringifyMembers ms ++ ['}'])) = stringifyVal (Json.obj ms)
      from rfl,
    jsonParse_stringify_obj ms hm]
  rfl

/-! Extraction of a whole formatted directive -/

theorem extract_qual_format (server tool : String) (ms : List (String × Json))
    (hs : wordToken server = true) (ht : wordToken tool = true)
    (hm : safeMembers ms = true) :
    extractToolCalls (formatQual server tool ms) =
      [{ tool := server ++ "." ++ tool, args := Json.obj ms }] := by
  obtain ⟨hs1, hs2⟩ := wordToken_spec server hs
  obtain ⟨ht1, ht2⟩ := wordToken_spec tool ht
  have hint := stringifyMembers_interior ms hm
  have hdata : (formatQual server tool ms).data =
      kwChars ++ ' ' :: (server.data ++ ' ' :: (tool.data ++ ' ' ::
        ('{' :: (stringifyMembers ms ++ '}' :: [])))) := by
    simp [formatQual, stringifyVal]
  have hlen : (kwChars ++ ' ' :: (server.data ++ ' ' :: (tool.data ++ ' ' ::
      ('{' :: (stringifyMembers ms ++ '}' :: []))))).length ≤
      server.data.length + tool.data.length + (stringifyMembers ms).length + 15 := by
    simp only [List.length_append, List.length_cons, List.length_nil, kwChars]
    omega
  rw [extract_decomposition]
  simp only [qualMatches, unqualMatches]
  rw [hdata]
  rw [scanQual_single _ _ 0 _
    (matchQualAt_build server.data tool.data (stringifyMembers ms) []
      hs1 hs2 ht1 ht2 hint) hlen]
  rw [scanUnqual_all_none _ _ 0 0
    (qual_text_unqual_none server.data tool.data (stringifyMembers ms)
      hs1 hs2 ht1 ht2 hint)]
  simp only [List.filterMap_cons, List.filterMap_nil,
    mkQualCall_format server tool ms hm, List.append_nil]

theorem scanUnqual_step_some (fuel : Nat) (l : List Char) (pos tIdx : Nat)
    (m : UnqualCap) (hm : matchUnqualAt l = some m) :
    scanUnqual (fuel + 1) l pos tIdx =
      (if (jsTestQual (l.take m.len) tIdx).1 then
        scanUnqual fuel (l.drop m.len) (pos + m.len)
          (jsTestQual (l.take m.len) tIdx).2
      else (pos, m) :: scanUnqual fuel (l.drop m.len) (pos + m.len)
        (jsTestQual (l.take m.len) tIdx).2) := by
  simp only [scanUnqual, hm]

theorem extract_unqual_format (tool : String) (ms : List (String × Json))
    (ht : wordToken tool = true) (hm : safeMembers ms = true) :
    extractToolCalls (formatUnqual tool ms) =
      [{ tool := tool, args := Json.obj ms }] := by
  obtain ⟨ht1, ht2⟩ := wordToken_spec tool ht
  have hint := stringifyMembers_interior ms hm
  have hdata : (formatUnqual tool ms).data =
      kwChars ++ ' ' :: (tool.data ++ ' ' ::
        ('{' :: (stringifyMembers ms ++ '}' :: []))) := by
    simp [formatUnqual, stringifyVal]
  have hlen : (kwChars ++ ' ' :: (tool.data ++ ' ' ::
      ('{' :: (stringifyMembers ms ++ '}' :: [])))).length ≤
      tool.data.length + (stringifyMembers ms).length + 14 := by
    simp only [List.length_append, List.length_cons, List.length_nil, kwChars]
    omega
  have hqnone := unqual_text_qual_none tool.data (stringifyMembers ms) ht1 ht2 hint
  rw [extract_decomposition]
  simp only [qualMatches, unqualMatches]
  rw [hdata]
  rw [scanQual_all_none _ _ 0 hqnone]
  have hbuild := matchUnqualAt_build tool.data (stringifyMembers ms) [] ht1 ht2 hint
  have htest : jsTestQual (kwChars ++ ' ' :: (tool.data ++ ' ' ::
      ('{' :: (stringifyMembers ms ++ '}' :: [])))) 0 = (false, 0) := by
    simp only [jsTestQual, List.drop_zero]
    rw [scanQualHit_all_none _ _ 0 hqnone]
  rw [scanUnqual_step_some _ _ 0 0 _ hbuild]
  simp only [List.take_of_length_le hlen, htest, Bool.false_eq_true, if_false,
    List.drop_eq_nil_of_le hlen, scanUnqual_nil]
  simp only [List.filterMap_cons, List.filterMap_nil,
    mkUnqualCall_format tool ms hm, List.nil_append]


/-- C2 counterexample: the unrestricted round-trip claim fails. Formatting
the request `ls {"a": {}}` (a legitimate ToolCallRequest whose argument
mapping contains a nested object) in the unqualified syntax and re-extracting
yields no request at all: the lazy `\x7b.*?\x7d` group stops at the first
`\x7d`, capturing the unparsable fragment `\x7b"a":\x7b\x7d`, whose
`JSON.parse` failure makes the extractor drop the match. -/
theorem extract_roundtrip_counterexample :
    extractToolCalls (formatUnqual "ls" [("a", Json.obj [])]) = [] := rfl

/-- C2 (amended): the round-trip holds on the flat fragment the directive
grammar can actually transport: for server and tool names that are nonempty
`\w+` tokens and an argument mapping whose keys and scalar values stay inside
the safe alphabet (no quote, backslash, brace, slash, control character or
line terminator — in particular no nested objects or arrays), formatting in
the qualified syntax and re-extracting yields exactly the one request
`server.tool` with the original mapping, and formatting in the unqualified
syntax yields exactly the one request `tool` with the original mapping. -/
theorem extract_format_roundtrip (server tool : String)
    (ms : List (String × Json))
    (hs : wordToken server = true) (ht : wordToken tool = true)
    (hm : safeMembers ms = true) :
    extractToolCalls (formatQual server tool ms) =
      [{ tool := server ++ "." ++ tool, args := Json.obj ms }] ∧
    extractToolCalls (formatUnqual tool ms) =
      [{ tool := tool, args := Json.obj ms }] :=
  ⟨extract_qual_format server tool ms hs ht hm,
   extract_unqual_format tool ms ht hm⟩

/-- Witness for C2 at the concrete request `filesystem.ls {"path": "tmp"}`. -/
theorem extract_format_roundtrip_witness :
    wordToken "filesystem" = true ∧ wordToken "ls" = true ∧
    safeMembers [("path", Json.str "tmp")] = true ∧
    extractToolCalls (formatQual "filesystem" "ls" [("path", Json.str "tmp")]) =
      [{ tool := "filesystem" ++ "." ++ "ls",
         args := Json.obj [("path", Json.str "tmp")] }] ∧
    extractToolCalls (formatUnqual "ls" [("path", Json.str "tmp")]) =
      [{ tool := "ls", args := Json.obj [("path", Json.str "tmp")] }] :=
  ⟨by decide, by decide, by decide,
   (extract_format_roundtrip "filesystem" "ls" [("path", Json.str "tmp")]
     (by decide) (by decide) (by decide)).1,
   (extract_format_roundtrip "filesystem" "ls" [("path", Json.str "tmp")]
     (by decide) (by decide) (by decide)).2⟩

end LocalCode
